import Mathlib

/-!
# tock: a stoppable, resumable, adjustable ticker

Shallow embedding of `tock.go` (package `tock`).

The Go program consists of one control loop goroutine (`Ticker.start`), the
callers of `Stop` / `Resume` / `Adjust`, the consumer reading `Ticker.C`, and
the runtime timer behind `time.Ticker`.  The embedding is a transition system:

* the state holds the heap objects the program allocates (the `chan time.Time`
  objects, the `time.Ticker` objects), the fields of the `Ticker` struct
  (`C`, `c`, `t`, `dc`) and the loop local `d` of `start`;
* every atomic action of one of the participants is a function on that state
  returning an `Outcome`: it completes, it blocks (the action is not enabled
  in that state) or it panics.

`time.Duration` is an `int64`; the program only compares durations, it never
does arithmetic on them, so durations are integers.

The transition system leaves open when a ticker ticks.  For the claims about
the cadence a clock is put on top of it (section "Logical time"): every
execution in logical time is an execution of the transition system.
-/

namespace Tock

/-- A `time.Duration`, in nanoseconds. -/
abbrev Duration := Int

/-- A `time.Time`, as nanoseconds since some epoch.  The zero value is `0`. -/
abbrev Time := Int

/-- Result of one atomic action: it completed with a value, it cannot proceed in
this state (a channel operation that would block), or it panicked. -/
inductive Outcome (α : Type) where
  | done (a : α)
  | blocked
  | panic
  deriving DecidableEq, Repr

/-- The error values of the package. -/
inductive Error where
  | ErrDuration
  deriving DecidableEq, Repr

/-! ## Go channels -/

/-- A buffered Go channel: its capacity, the queued values (oldest first) and
whether `close` has been called on it. -/
structure Chan (α : Type) where
  cap : Nat
  buf : List α
  closed : Bool
  deriving DecidableEq, Repr

/-- The channel `make(chan α, n)`. -/
def Chan.make {α : Type} (n : Nat) : Chan α :=
  { cap := n, buf := [], closed := false }

/-- A nil channel: every send and every receive on it blocks forever. -/
def Chan.nil {α : Type} : Chan α :=
  { cap := 0, buf := [], closed := false }

/-- The statement `ch <- v`: panics on a closed channel, queues `v` when the
buffer has room, blocks otherwise. -/
def Chan.send {α : Type} (ch : Chan α) (v : α) : Outcome (Chan α) :=
  if ch.closed then .panic
  else if ch.buf.length < ch.cap then .done { ch with buf := ch.buf ++ [v] }
  else .blocked

/-- The statement `select { case ch <- v: default: }`: as `send`, but where
`send` would block the default branch is taken and `v` is dropped. -/
def Chan.trySend {α : Type} (ch : Chan α) (v : α) : Outcome (Chan α) :=
  if ch.closed then .panic
  else if ch.buf.length < ch.cap then .done { ch with buf := ch.buf ++ [v] }
  else .done ch

/-- The expression `<-ch`: the oldest queued value; on an empty channel the zero
value if the channel is closed, and blocking otherwise. -/
def Chan.recv {α : Type} (zero : α) (ch : Chan α) : Outcome (α × Chan α) :=
  match ch.buf with
  | v :: rest => .done (v, { ch with buf := rest })
  | [] => if ch.closed then .done (zero, ch) else .blocked

/-! ## The runtime timer `time.Ticker`

`time.Ticker` is the external collaborator.  Its contract: `time.NewTicker(d)`
panics for `d ≤ 0` and otherwise returns a new ticker that delivers timestamps
on its channel; after `Stop` no more ticks are delivered; `Stop` does not close
the channel and may be called any number of times.  When a live ticker delivers
and which timestamp it carries is left to the environment.  The hand-over of a
tick from a ticker to the goroutine receiving on its channel is one atomic
event: a tick is received when it is sent, none is kept in the ticker. -/

/-- A `time.Ticker` object: the period it was created with and whether it still
delivers. -/
structure GoTicker where
  interval : Duration
  live : Bool
  deriving DecidableEq, Repr

/-- The call `time.NewTicker(d)` on the heap of ticker objects: panics for
`d ≤ 0`, otherwise allocates a live ticker and returns its address. -/
def timeNewTicker (timers : List GoTicker) (d : Duration) : Outcome (List GoTicker × Nat) :=
  if d ≤ 0 then .panic
  else .done (timers ++ [{ interval := d, live := true }], timers.length)

/-- The call `tk.Stop()` for the ticker at address `i`. -/
def timeTickerStop (timers : List GoTicker) (i : Nat) : List GoTicker :=
  match timers[i]? with
  | some tk => timers.set i { tk with live := false }
  | none => timers

/-- Whether the ticker at address `i` can deliver a tick on its channel. -/
def tickerDelivers (timers : List GoTicker) (i : Nat) : Bool :=
  match timers[i]? with
  | some tk => tk.live
  | none => false

/-! ## The program state -/

/-- The heap, the fields of the `Ticker` struct and the local `d` of the control
loop `start`.  References are addresses into the heap lists; `none` is nil. -/
structure State where
  /-- heap of `chan time.Time` objects -/
  chans : List (Chan Time)
  /-- heap of `time.Ticker` objects -/
  timers : List GoTicker
  /-- field `C  <-chan time.Time` -/
  C : Option Nat
  /-- field `c  chan time.Time` -/
  c : Option Nat
  /-- field `t  *time.Ticker` -/
  t : Option Nat
  /-- field `dc chan time.Duration`; never aliased nor reassigned, so the field
  is identified with the channel object -/
  dc : Chan Duration
  /-- local `d` of `start` -/
  d : Duration
  deriving DecidableEq, Repr

/-- The channel object a `chan time.Time` reference points to. -/
def State.chanAt (s : State) (r : Option Nat) : Chan Time :=
  match r with
  | none => Chan.nil
  | some i => (s.chans[i]?).getD Chan.nil

/-- Store `ch` in the channel object the reference `r` points to. -/
def State.setChan (s : State) (r : Option Nat) (ch : Chan Time) : State :=
  match r with
  | none => s
  | some i => { s with chans := s.chans.set i ch }

/-- Values waiting in the output channel `t.c`. -/
def State.out (s : State) : List Time := (s.chanAt s.c).buf

/-- The ticker is Running: `t.t` points to a ticker that still delivers. -/
def State.Running (s : State) : Bool :=
  match s.t with
  | none => false
  | some i => tickerDelivers s.timers i

/-- The ticker is Stopped: there is no ticker the loop can receive a tick from. -/
def State.Stopped (s : State) : Bool := !s.Running

/-- Number of live `time.Ticker` objects on the heap. -/
def State.liveCount (s : State) : Nat := (s.timers.filter (·.live)).length

/-! ## The package `tock` -/

/-- The function `NewTicker`. -/
def NewTicker (d : Duration) : Outcome State :=
  if d ≤ 0 then .panic
  else
    -- c: make(chan time.Time, 1)
    let chans : List (Chan Time) := [Chan.make 1]
    let c : Option Nat := some 0
    -- t: time.NewTicker(d)
    match timeNewTicker [] d with
    | .done (timers, tk) =>
      -- dc: make(chan time.Duration, 1); t.C = t.c; go t.start(d)
      .done { chans := chans, timers := timers, C := c, c := c, t := some tk,
              dc := Chan.make 1, d := d }
    | .blocked => .blocked
    | .panic => .panic

/-- Body of `case nextd := <-t.dc:` in `start`, after the receive. -/
def onCommand (s : State) (nextd : Duration) : Outcome State :=
  -- if t.t != nil { t.t.Stop() }
  let s1 : State :=
    match s.t with
    | some i => { s with timers := timeTickerStop s.timers i }
    | none => s
  if nextd ≥ 0 then
    -- if nextd > 0 { d = nextd }
    let s2 : State := if nextd > 0 then { s1 with d := nextd } else s1
    if s2.d > 0 then
      -- t.t = time.NewTicker(d)
      match timeNewTicker s2.timers s2.d with
      | .done (timers, tk) => .done { s2 with timers := timers, t := some tk }
      | .blocked => .blocked
      | .panic => .panic
    else .done s2
  else .done s1

/-- Body of `case tm := <-tick.C:` in `start`: the non-blocking send on `t.c`. -/
def onTick (s : State) (tm : Time) : Outcome State :=
  match (s.chanAt s.c).trySend tm with
  | .done ch => .done (s.setChan s.c ch)
  | .blocked => .blocked
  | .panic => .panic

/-- The two cases of the `select` in `start`. -/
inductive LoopEvent where
  /-- the case `nextd := <-t.dc` -/
  | command
  /-- the case `tm := <-tick.C`, the ticker delivering `tm` -/
  | timerFired (tm : Time)
  deriving DecidableEq, Repr

/-- One iteration of the `for` loop of `start`, taking the given case of the
`select`.  `tick = t.t` is read first and `tick.C` is evaluated on entering the
`select`, which panics when `tick` is nil. -/
def loopIter (s : State) (ev : LoopEvent) : Outcome State :=
  match s.t with
  | none => .panic
  | some tick =>
    match ev with
    | .command =>
      match s.dc.recv 0 with
      | .done (nextd, dc) => onCommand { s with dc := dc } nextd
      | .blocked => .blocked
      | .panic => .panic
    | .timerFired tm =>
      if tickerDelivers s.timers tick then onTick s tm else .blocked

/-- The method `Stop`. -/
def Stop (s : State) : Outcome State :=
  match s.dc.send (-1) with
  | .done dc => .done { s with dc := dc }
  | .blocked => .blocked
  | .panic => .panic

/-- The method `Resume`. -/
def Resume (s : State) : Outcome State :=
  match s.dc.send 0 with
  | .done dc => .done { s with dc := dc }
  | .blocked => .blocked
  | .panic => .panic

/-- The method `Adjust`, with its returned error (`none` is nil). -/
def Adjust (s : State) (d : Duration) : Outcome (Option Error × State) :=
  if d ≤ 0 then .done (some Error.ErrDuration, s)
  else
    match s.dc.send d with
    | .done dc => .done (none, { s with dc := dc })
    | .blocked => .blocked
    | .panic => .panic

/-- A consumer's `<-ticker.C`. -/
def readC (s : State) : Outcome (Time × State) :=
  match (s.chanAt s.C).recv 0 with
  | .done (tm, ch) => .done (tm, s.setChan s.C ch)
  | .blocked => .blocked
  | .panic => .panic

/-! ## Executions -/

/-- The atomic actions of the participants. -/
inductive Event where
  | loop (ev : LoopEvent)
  | stop
  | resume
  | adjust (d : Duration)
  | read
  deriving DecidableEq, Repr

/-- Drop the returned value of an action. -/
def Outcome.state {α : Type} : Outcome (α × State) → Outcome State
  | .done (_, s) => .done s
  | .blocked => .blocked
  | .panic => .panic

/-- One action of the system. -/
def step (s : State) : Event → Outcome State
  | .loop ev => loopIter s ev
  | .stop => Stop s
  | .resume => Resume s
  | .adjust d => (Adjust s d).state
  | .read => (readC s).state

/-- An execution: the actions taken one after the other.  It is `done` only if
every action was enabled and none panicked. -/
def run (s : State) : List Event → Outcome State
  | [] => .done s
  | e :: es =>
    match step s e with
    | .done s1 => run s1 es
    | .blocked => .blocked
    | .panic => .panic

/-- The states of the executions that start with `NewTicker(d0)`. -/
def Reachable (d0 : Duration) (s : State) : Prop :=
  ∃ s0 es, NewTicker d0 = .done s0 ∧ run s0 es = .done s

/-- Timestamps the tickers deliver to the loop in an execution, in order. -/
def delivered : List Event → List Time
  | [] => []
  | .loop (.timerFired tm) :: es => tm :: delivered es
  | _ :: es => delivered es

/-- Timestamps the consumer receives from `C` in an execution, in order. -/
def consumed (s : State) : List Event → List Time
  | [] => []
  | e :: es =>
    match step s e with
    | .done s1 =>
      match e, readC s with
      | .read, .done (tm, _) => tm :: consumed s1 es
      | _, _ => consumed s1 es
    | .blocked => []
    | .panic => []

/-! ## Logical time

The claims about the cadence need the times at which a ticker ticks.  In
logical time a `time.Ticker` created at time `τ` with period `d` ticks at
`τ + d`, `τ + 2d`, ...: each tick carries the time at which it is due and is
handed to the loop at that time.  Actions of the loop, of the callers and of
the consumer take no time; time passes between them, but never past a tick
that is due. -/

/-- Period of the ticker `t.t` points to (`0` when there is none). -/
def State.period (s : State) : Duration :=
  match s.t with
  | none => 0
  | some i =>
    match s.timers[i]? with
    | some tk => tk.interval
    | none => 0

/-- The program state with a clock: the current time and the time at which the
ticker `t.t` points to ticks next. -/
structure Timed where
  st : State
  now : Time
  due : Time
  deriving DecidableEq, Repr

/-- What happens in logical time. -/
inductive TimedEvent where
  /-- time passes by `dt` -/
  | wait (dt : Duration)
  /-- the ticker `t.t` points to ticks and the loop takes its timer case -/
  | tick
  /-- an action of the loop (command case), of a caller or of the consumer -/
  | act (e : Event)
  deriving DecidableEq, Repr

/-- One step in logical time.  A ticker created by the step (the heap of
tickers grew) ticks first one period after the current time. -/
def tstep (ts : Timed) : TimedEvent → Outcome Timed
  | .wait dt =>
    if dt < 0 then .blocked
    else if ts.st.Running && decide (ts.due < ts.now + dt) then .blocked
    else .done { ts with now := ts.now + dt }
  | .tick =>
    if ts.st.Running && decide (ts.now = ts.due) then
      match loopIter ts.st (.timerFired ts.due) with
      | .done s1 => .done { st := s1, now := ts.now, due := ts.due + ts.st.period }
      | .blocked => .blocked
      | .panic => .panic
    else .blocked
  | .act (.loop (.timerFired _)) => .blocked
  | .act e =>
    match step ts.st e with
    | .done s1 =>
      .done { st := s1, now := ts.now,
              due := if ts.st.timers.length < s1.timers.length then ts.now + s1.period
                     else ts.due }
    | .blocked => .blocked
    | .panic => .panic

/-- An execution in logical time. -/
def trun (ts : Timed) : List TimedEvent → Outcome Timed
  | [] => .done ts
  | e :: es =>
    match tstep ts e with
    | .done ts1 => trun ts1 es
    | .blocked => .blocked
    | .panic => .panic

/-- The states an execution in logical time goes through, the first included. -/
def tvisited (ts : Timed) : List TimedEvent → List Timed
  | [] => [ts]
  | e :: es =>
    match tstep ts e with
    | .done ts1 => ts :: tvisited ts1 es
    | .blocked => [ts]
    | .panic => [ts]

/-- The actions of the program in an execution in logical time: the waits are
dropped and a tick is the timer case of the loop with the time that was due. -/
def untimed (ts : Timed) : List TimedEvent → List Event
  | [] => []
  | e :: es =>
    match tstep ts e with
    | .done ts1 =>
      match e with
      | .wait _ => untimed ts1 es
      | .tick => .loop (.timerFired ts.due) :: untimed ts1 es
      | .act a => a :: untimed ts1 es
    | .blocked => []
    | .panic => []

/-- The call `NewTicker(d)` at time `t0`: the ticker ticks first at `t0 + d`. -/
def tNewTicker (t0 : Time) (d : Duration) : Outcome Timed :=
  match NewTicker d with
  | .done s => .done { st := s, now := t0, due := t0 + d }
  | .blocked => .blocked
  | .panic => .panic

/-- A consumer that keeps up with a ticker of period `d`: in each period the tick
arrives when it is due and is read `b` later, for the delays `b` of the list;
`carry` is the delay of the read before. -/
def keepUp (d : Duration) : Duration → List Duration → List TimedEvent
  | _, [] => []
  | carry, b :: bs => .wait (d - carry) :: .tick :: .wait b :: .act .read :: keepUp d b bs

/-- A caller that calls `Resume` again and again, the loop taking each command at
once: the gaps of the list are the times between two of them. -/
def resumeEvery : List Duration → List TimedEvent
  | [] => []
  | g :: gs => .wait g :: .act .resume :: .act (.loop .command) :: resumeEvery gs

/-! ## Sample states -/

/-- The state `NewTicker(time.Millisecond)` returns. -/
def sampleRunning : State :=
  { chans := [Chan.make 1], timers := [{ interval := 1000000, live := true }],
    C := some 0, c := some 0, t := some 0, dc := Chan.make 1, d := 1000000 }

/-- The state `sampleRunning` after a call of `Stop` the loop has not yet seen. -/
def sampleStopSent : State :=
  { sampleRunning with dc := { cap := 1, buf := [-1], closed := false } }

/-- The state `sampleStopSent` after the loop took the Stop command. -/
def sampleStopped : State :=
  { sampleRunning with timers := [{ interval := 1000000, live := false }] }

/-- The state `sampleStopped` after a further call of `Stop`. -/
def sampleStoppedStopSent : State :=
  { sampleStopped with dc := { cap := 1, buf := [-1], closed := false } }

/-- The state `sampleRunning` after a call of `Resume` the loop has not yet seen. -/
def sampleResumeSent : State :=
  { sampleRunning with dc := { cap := 1, buf := [0], closed := false } }

/-- The state `sampleRunning` after a call of `Adjust(5ms)` the loop has not yet
seen. -/
def sampleAdjustSent : State :=
  { sampleRunning with dc := { cap := 1, buf := [5000000], closed := false } }

/-- The state `sampleRunning` after the loop published the tick `7`. -/
def sampleTicked : State :=
  { sampleRunning with chans := [{ cap := 1, buf := [7], closed := false }] }

/-- The state `sampleTicked` after a call of `Stop` the loop has not yet seen. -/
def sampleTickedStopSent : State :=
  { sampleTicked with dc := { cap := 1, buf := [-1], closed := false } }

/-- The state `sampleTickedStopSent` after the loop took the Stop command. -/
def sampleTickedStopped : State :=
  { sampleTicked with timers := [{ interval := 1000000, live := false }] }

/-- The state `sampleResumeSent` at time `107`, the next tick being due at `110`. -/
def sampleTimed : Timed :=
  { st := sampleResumeSent, now := 107, due := 110 }

/-! ## The invariant of the executions -/

/-- What holds in every state an execution started by `NewTicker` reaches. -/
structure Inv (s : State) : Prop where
  /-- the exported `C` is the channel `c` the loop publishes to -/
  sameChan : s.C = s.c
  /-- the channel `c` is open, of capacity 1 and holds at most one value -/
  outChan : ∃ k ch, s.c = some k ∧ s.chans[k]? = some ch ∧ ch.cap = 1 ∧
    ch.closed = false ∧ ch.buf.length ≤ 1
  /-- the channel `dc` is open, of capacity 1 and holds at most one value -/
  dcCap : s.dc.cap = 1
  dcOpen : s.dc.closed = false
  dcLen : s.dc.buf.length ≤ 1
  /-- the interval of the loop is positive -/
  dPos : 0 < s.d
  /-- the handle `t.t` is not nil and points to the ticker created last -/
  handle : ∃ i, s.t = some i ∧ i + 1 = s.timers.length
  /-- the only ticker that can be live is the one `t.t` points to -/
  oneLive : ∀ j tk, s.timers[j]? = some tk → tk.live = true → s.t = some j
  /-- every ticker was created with a positive interval -/
  intervals : ∀ tk ∈ s.timers, 0 < tk.interval
  /-- the ticker `t.t` points to was created with the interval of the loop -/
  cadence : ∀ i tk, s.t = some i → s.timers[i]? = some tk → tk.interval = s.d

/-- The ticker is Stopped and only Stop commands are waiting. -/
def Quiet (s : State) : Prop :=
  Inv s ∧ s.Stopped = true ∧ ∀ v ∈ s.dc.buf, v < 0

/-! ## Basic facts about the heap of tickers -/

theorem timeTickerStop_length (timers : List GoTicker) (i : Nat) :
    (timeTickerStop timers i).length = timers.length := by
  unfold timeTickerStop
  split <;> simp

theorem tickerDelivers_stop_self (timers : List GoTicker) (i : Nat) :
    tickerDelivers (timeTickerStop timers i) i = false := by
  unfold tickerDelivers timeTickerStop
  cases h : timers[i]? with
  | none => simp [h]
  | some tk =>
    have hi : i < timers.length := by
      rcases List.getElem?_eq_some_iff.mp h with ⟨hi, _⟩
      exact hi
    simp [List.getElem?_set, hi]

theorem timeTickerStop_getElem? (timers : List GoTicker) (i : Nat) (tk : GoTicker)
    (h : timers[i]? = some tk) :
    (timeTickerStop timers i)[i]? = some { tk with live := false } := by
  have hi : i < timers.length := by
    rcases List.getElem?_eq_some_iff.mp h with ⟨hi, _⟩
    exact hi
  simp [timeTickerStop, h, List.getElem?_set, hi]

theorem timeTickerStop_getElem?_eq (timers : List GoTicker) (i j : Nat) :
    (timeTickerStop timers i)[j]? =
      (timers[j]?).map (fun tk => if i = j then { tk with live := false } else tk) := by
  unfold timeTickerStop
  cases h : timers[i]? with
  | none =>
    have hne : i ≠ j ∨ timers[j]? = none := by
      by_cases hij : i = j
      · right; rw [← hij]; exact h
      · left; exact hij
    rcases hne with hne | hne
    · cases hj : timers[j]? <;> simp [hne]
    · simp [hne]
  | some tk =>
    have hi : i < timers.length := by
      rcases List.getElem?_eq_some_iff.mp h with ⟨hi, _⟩
      exact hi
    simp only [List.getElem?_set]
    by_cases hij : i = j
    · subst hij
      simp [hi, h]
    · cases hj : timers[j]? <;> simp [hij]

theorem timeTickerStop_interval (timers : List GoTicker) (i : Nat) (tk : GoTicker)
    (h : tk ∈ timeTickerStop timers i) : ∃ tk0 ∈ timers, tk0.interval = tk.interval := by
  obtain ⟨j, hj⟩ := List.getElem?_of_mem h
  rw [timeTickerStop_getElem?_eq] at hj
  cases h0 : timers[j]? with
  | none => simp [h0] at hj
  | some tk0 =>
    simp only [h0, Option.map_some'] at hj
    injection hj with hj
    refine ⟨tk0, List.getElem?_mem h0, ?_⟩
    rw [← hj]
    split <;> rfl

theorem timeTickerStop_idem (timers : List GoTicker) (i : Nat) :
    timeTickerStop (timeTickerStop timers i) i = timeTickerStop timers i := by
  apply List.ext_getElem?
  intro j
  simp only [timeTickerStop_getElem?_eq, Option.map_map]
  cases timers[j]? with
  | none => rfl
  | some tk =>
    simp only [Option.map_some', Function.comp]
    split <;> rfl

/-! ## The command case of the loop, by the sign of the value received -/

theorem loopIter_command (s : State) (i : Nat) (nextd : Duration) (rest : List Duration)
    (ht : s.t = some i) (hbuf : s.dc.buf = nextd :: rest) :
    loopIter s .command = onCommand { s with dc := { s.dc with buf := rest } } nextd := by
  simp [loopIter, ht, Chan.recv, hbuf]

theorem onCommand_neg (s : State) (i : Nat) (nextd : Duration) (ht : s.t = some i)
    (hn : nextd < 0) :
    onCommand s nextd = .done { s with timers := timeTickerStop s.timers i } := by
  have h : ¬ nextd ≥ 0 := not_le.mpr hn
  simp [onCommand, ht, h]

theorem onCommand_pos (s : State) (i : Nat) (nextd : Duration) (ht : s.t = some i)
    (hp : 0 < nextd) :
    onCommand s nextd = .done { s with
      timers := timeTickerStop s.timers i ++ [{ interval := nextd, live := true }],
      t := some s.timers.length, d := nextd } := by
  have h : nextd ≥ 0 := le_of_lt hp
  have h2 : ¬ nextd ≤ 0 := not_le.mpr hp
  simp [onCommand, ht, h, hp, h2, timeNewTicker, timeTickerStop_length]

theorem onCommand_zero (s : State) (i : Nat) (ht : s.t = some i) (hd : 0 < s.d) :
    onCommand s 0 = .done { s with
      timers := timeTickerStop s.timers i ++ [{ interval := s.d, live := true }],
      t := some s.timers.length } := by
  have h2 : ¬ s.d ≤ 0 := not_le.mpr hd
  simp [onCommand, ht, hd, h2, timeNewTicker, timeTickerStop_length]

theorem onCommand_zero_idle (s : State) (i : Nat) (ht : s.t = some i) (hd : s.d ≤ 0) :
    onCommand s 0 = .done { s with timers := timeTickerStop s.timers i } := by
  have h2 : ¬ 0 < s.d := not_lt.mpr hd
  simp [onCommand, ht, h2]

theorem getElem?_append_new (timers : List GoTicker) (i : Nat) (tk : GoTicker) :
    (timeTickerStop timers i ++ [tk])[timers.length]? = some tk := by
  rw [← timeTickerStop_length timers i]
  simp

theorem tickerDelivers_append_new (timers : List GoTicker) (i : Nat) (d : Duration) :
    tickerDelivers (timeTickerStop timers i ++ [{ interval := d, live := true }])
      timers.length = true := by
  simp [tickerDelivers, getElem?_append_new]

/-! ## The heap of channels -/

theorem chanAt_setChan_self (s : State) (k : Nat) (ch : Chan Time)
    (hk : k < s.chans.length) :
    (s.setChan (some k) ch).chanAt (some k) = ch := by
  simp [State.chanAt, State.setChan, List.getElem?_set, hk]

theorem chanAt_setChan_other (s : State) (j k : Nat) (ch : Chan Time) (hjk : k ≠ j) :
    (s.setChan (some k) ch).chanAt (some j) = s.chanAt (some j) := by
  simp [State.chanAt, State.setChan, List.getElem?_set, hjk]

theorem chanAt_dangling (s : State) (k : Nat) (hk : ¬ k < s.chans.length) :
    s.chanAt (some k) = Chan.nil := by
  have : s.chans[k]? = none := List.getElem?_eq_none (not_lt.mp hk)
  simp [State.chanAt, this]

theorem setChan_dangling (s : State) (k : Nat) (ch : Chan Time)
    (hk : ¬ k < s.chans.length) :
    s.setChan (some k) ch = s := by
  have : s.chans.set k ch = s.chans := List.set_eq_of_length_le (not_lt.mp hk)
  simp [State.setChan, this]

theorem set_getElem?_self {α : Type} (l : List α) (k : Nat) (x : α) (h : l[k]? = some x) :
    l.set k x = l := by
  apply List.ext_getElem?
  intro j
  rw [List.getElem?_set]
  by_cases hkj : k = j
  · subst hkj
    have hlt : k < l.length := by
      rcases List.getElem?_eq_some_iff.mp h with ⟨hlt, _⟩
      exact hlt
    simp [hlt, h]
  · simp [hkj]

theorem setChan_chanAt_self (s : State) (k : Nat) :
    s.setChan (some k) (s.chanAt (some k)) = s := by
  by_cases hk : k < s.chans.length
  · have hget : s.chans[k]? = some (s.chans[k]) := List.getElem?_eq_getElem hk
    have := set_getElem?_self s.chans k _ hget
    simp [State.setChan, State.chanAt, hget, this]
  · exact setChan_dangling s k _ hk

/-- Storing a channel with buffer `b` at `r` leaves the buffer of the channel at
`r2` as it was, or makes it `b` when `r2` is that same channel. -/
theorem out_setChan (s : State) (r r2 : Option Nat) (ch : Chan Time) :
    ((s.setChan r ch).chanAt r2).buf = (s.chanAt r2).buf ∨
    (r = r2 ∧ ((s.setChan r ch).chanAt r2).buf = ch.buf) := by
  cases r with
  | none => left; rfl
  | some k =>
    cases r2 with
    | none => left; rfl
    | some j =>
      by_cases hjk : k = j
      · subst hjk
        by_cases hk : k < s.chans.length
        · right
          exact ⟨rfl, by rw [chanAt_setChan_self s k ch hk]⟩
        · left
          rw [setChan_dangling s k ch hk]
      · left
        rw [chanAt_setChan_other s j k ch hjk]

/-! ## What each action can change -/

@[simp] theorem setChan_t (s : State) (r : Option Nat) (ch : Chan Time) :
    (s.setChan r ch).t = s.t := by
  cases r <;> rfl

@[simp] theorem setChan_timers (s : State) (r : Option Nat) (ch : Chan Time) :
    (s.setChan r ch).timers = s.timers := by
  cases r <;> rfl

@[simp] theorem setChan_d (s : State) (r : Option Nat) (ch : Chan Time) :
    (s.setChan r ch).d = s.d := by
  cases r <;> rfl

@[simp] theorem setChan_dc (s : State) (r : Option Nat) (ch : Chan Time) :
    (s.setChan r ch).dc = s.dc := by
  cases r <;> rfl

@[simp] theorem setChan_c (s : State) (r : Option Nat) (ch : Chan Time) :
    (s.setChan r ch).c = s.c := by
  cases r <;> rfl

@[simp] theorem setChan_C (s : State) (r : Option Nat) (ch : Chan Time) :
    (s.setChan r ch).C = s.C := by
  cases r <;> rfl

@[simp] theorem setChan_chans_length (s : State) (r : Option Nat) (ch : Chan Time) :
    (s.setChan r ch).chans.length = s.chans.length := by
  cases r <;> simp [State.setChan]

theorem Stop_done (s s1 : State) (h : Stop s = .done s1) :
    ∃ dc, s.dc.send (-1) = .done dc ∧ s1 = { s with dc := dc } := by
  unfold Stop at h
  split at h
  · rename_i dc hdc
    injection h with h
    exact ⟨dc, hdc, h.symm⟩
  · cases h
  · cases h

theorem Resume_done (s s1 : State) (h : Resume s = .done s1) :
    ∃ dc, s.dc.send 0 = .done dc ∧ s1 = { s with dc := dc } := by
  unfold Resume at h
  split at h
  · rename_i dc hdc
    injection h with h
    exact ⟨dc, hdc, h.symm⟩
  · cases h
  · cases h

theorem Adjust_done (s s1 : State) (d : Duration) (r : Option Error)
    (h : Adjust s d = .done (r, s1)) :
    (d ≤ 0 ∧ r = some Error.ErrDuration ∧ s1 = s) ∨
    (0 < d ∧ r = none ∧ ∃ dc, s.dc.send d = .done dc ∧ s1 = { s with dc := dc }) := by
  unfold Adjust at h
  split at h
  · rename_i hd
    injection h with h
    injection h with h1 h2
    exact Or.inl ⟨hd, h1.symm, h2.symm⟩
  · rename_i hd
    split at h
    · rename_i dc hdc
      injection h with h
      injection h with h1 h2
      exact Or.inr ⟨not_le.mp hd, h1.symm, dc, hdc, h2.symm⟩
    · cases h
    · cases h

theorem readC_done (s s1 : State) (tm : Time) (h : readC s = .done (tm, s1)) :
    ∃ ch, (s.chanAt s.C).recv 0 = .done (tm, ch) ∧ s1 = s.setChan s.C ch := by
  unfold readC at h
  split at h
  · rename_i tm1 ch hch
    injection h with h
    injection h with h1 h2
    subst h1
    exact ⟨ch, hch, h2.symm⟩
  · cases h
  · cases h

theorem onTick_done (s s1 : State) (tm : Time) (h : onTick s tm = .done s1) :
    ∃ ch, (s.chanAt s.c).trySend tm = .done ch ∧ s1 = s.setChan s.c ch := by
  unfold onTick at h
  split at h
  · rename_i ch hch
    injection h with h
    exact ⟨ch, hch, h.symm⟩
  · cases h
  · cases h

theorem state_done {α : Type} (o : Outcome (α × State)) (s1 : State)
    (h : o.state = .done s1) : ∃ a, o = .done (a, s1) := by
  cases o with
  | done p =>
    obtain ⟨a, s2⟩ := p
    simp only [Outcome.state] at h
    injection h with h
    exact ⟨a, by rw [h]⟩
  | blocked => cases h
  | panic => cases h

theorem timerFired_done (s s1 : State) (tm : Time)
    (h : loopIter s (.timerFired tm) = .done s1) :
    s.Running = true ∧ onTick s tm = .done s1 := by
  unfold loopIter at h
  cases ht : s.t with
  | none => simp [ht] at h
  | some i =>
    simp only [ht] at h
    by_cases hl : tickerDelivers s.timers i = true
    · simp only [hl, if_true] at h
      exact ⟨by simp [State.Running, ht, hl], h⟩
    · simp [hl] at h

theorem timerFired_stopped (s : State) (tm : Time) (i : Nat) (ht : s.t = some i)
    (h : s.Stopped = true) : loopIter s (.timerFired tm) = .blocked := by
  simp only [State.Stopped, State.Running, ht, Bool.not_eq_true'] at h
  simp [loopIter, ht, h]

theorem loopIter_command_eq (s : State) (i : Nat) (ht : s.t = some i) :
    loopIter s .command =
      match s.dc.recv 0 with
      | .done (nextd, dc) => onCommand { s with dc := dc } nextd
      | .blocked => .blocked
      | .panic => .panic := by
  unfold loopIter
  split
  · rename_i h
    rw [h] at ht
    cases ht
  · rfl

/-- The command case of the loop, when it completes: the value received and,
by its sign, the state it leaves. -/
theorem command_done (s s1 : State) (h : loopIter s .command = .done s1) :
    ∃ i nextd dc, s.t = some i ∧ s.dc.recv 0 = .done (nextd, dc) ∧
      ((nextd < 0 ∧ s1 = { s with dc := dc, timers := timeTickerStop s.timers i }) ∨
       (0 < nextd ∧ s1 = { s with
          dc := dc,
          timers := timeTickerStop s.timers i ++ [{ interval := nextd, live := true }],
          t := some s.timers.length, d := nextd }) ∨
       (nextd = 0 ∧ 0 < s.d ∧ s1 = { s with
          dc := dc,
          timers := timeTickerStop s.timers i ++ [{ interval := s.d, live := true }],
          t := some s.timers.length }) ∨
       (nextd = 0 ∧ s.d ≤ 0 ∧ s1 = { s with
          dc := dc,
          timers := timeTickerStop s.timers i })) := by
  rcases Option.eq_none_or_eq_some s.t with ht | ⟨i, ht⟩
  · simp [loopIter, ht] at h
  · rw [loopIter_command_eq s i ht] at h
    cases hr : s.dc.recv 0 with
    | blocked => simp [hr] at h
    | panic => simp [hr] at h
    | done p =>
      obtain ⟨nextd, dc⟩ := p
      rw [hr] at h
      simp only at h
      refine ⟨i, nextd, dc, ht, rfl, ?_⟩
      have ht2 : ({ s with dc := dc } : State).t = some i := ht
      rcases lt_trichotomy nextd 0 with hn | hz | hp
      · rw [onCommand_neg _ i nextd ht2 hn] at h
        injection h with h
        exact Or.inl ⟨hn, h.symm⟩
      · subst hz
        by_cases hd : 0 < s.d
        · rw [onCommand_zero _ i ht2 hd] at h
          injection h with h
          exact Or.inr (Or.inr (Or.inl ⟨rfl, hd, h.symm⟩))
        · rw [onCommand_zero_idle _ i ht2 (not_lt.mp hd)] at h
          injection h with h
          exact Or.inr (Or.inr (Or.inr ⟨rfl, not_lt.mp hd, h.symm⟩))
      · rw [onCommand_pos _ i nextd ht2 hp] at h
        injection h with h
        exact Or.inr (Or.inl ⟨hp, h.symm⟩)

/-- Every action other than the command case of the loop leaves the handle
`t.t`, the heap of tickers, the interval and the channel references alone. -/
theorem step_frame (s s1 : State) (e : Event) (hne : e ≠ .loop .command)
    (h : step s e = .done s1) :
    s1.t = s.t ∧ s1.timers = s.timers ∧ s1.d = s.d ∧ s1.c = s.c ∧ s1.C = s.C := by
  cases e with
  | loop ev =>
    cases ev with
    | command => exact absurd rfl hne
    | timerFired tm =>
      obtain ⟨_, h2⟩ := timerFired_done s s1 tm h
      obtain ⟨ch, _, rfl⟩ := onTick_done s s1 tm h2
      simp
  | stop =>
    obtain ⟨dc, _, rfl⟩ := Stop_done s s1 h
    simp
  | resume =>
    obtain ⟨dc, _, rfl⟩ := Resume_done s s1 h
    simp
  | adjust d =>
    obtain ⟨r, h2⟩ := state_done _ s1 h
    rcases Adjust_done s s1 d r h2 with ⟨_, _, rfl⟩ | ⟨_, _, dc, _, rfl⟩ <;> simp
  | read =>
    obtain ⟨tm, h2⟩ := state_done _ s1 h
    obtain ⟨ch, _, rfl⟩ := readC_done s s1 tm h2
    simp

theorem recv_done_buf {α : Type} (zero v : α) (ch ch1 : Chan α)
    (h : ch.recv zero = .done (v, ch1)) :
    (ch.buf = v :: ch1.buf) ∨ (ch.buf = [] ∧ ch.closed = true ∧ ch1 = ch ∧ v = zero) := by
  unfold Chan.recv at h
  split at h
  · rename_i w rest hb
    injection h with h
    injection h with h1 h2
    subst h1
    subst h2
    exact Or.inl hb
  · rename_i hb
    split at h
    · rename_i hc
      injection h with h
      injection h with h1 h2
      exact Or.inr ⟨hb, hc, h2.symm, h1.symm⟩
    · cases h

/-- Every action other than the timer case of the loop can only remove values
from the front of the output channel: it publishes nothing. -/
theorem step_out_suffix (s s1 : State) (e : Event)
    (hne : ∀ tm, e ≠ .loop (.timerFired tm)) (h : step s e = .done s1) :
    s1.out <:+ s.out := by
  cases e with
  | loop ev =>
    cases ev with
    | timerFired tm => exact absurd rfl (hne tm)
    | command =>
      obtain ⟨i, nextd, dc, _, _, h3⟩ := command_done s s1 h
      have hs : s1.chans = s.chans ∧ s1.c = s.c := by
        rcases h3 with ⟨_, rfl⟩ | ⟨_, rfl⟩ | ⟨_, _, rfl⟩ | ⟨_, _, rfl⟩ <;> exact ⟨rfl, rfl⟩
      simp only [State.out, State.chanAt, hs.1, hs.2]
      exact List.suffix_refl _
  | stop =>
    obtain ⟨dc, _, rfl⟩ := Stop_done s s1 h
    exact List.suffix_refl _
  | resume =>
    obtain ⟨dc, _, rfl⟩ := Resume_done s s1 h
    exact List.suffix_refl _
  | adjust d =>
    obtain ⟨r, h2⟩ := state_done _ s1 h
    rcases Adjust_done s s1 d r h2 with ⟨_, _, rfl⟩ | ⟨_, _, dc, _, rfl⟩
    · exact List.suffix_refl _
    · exact List.suffix_refl _
  | read =>
    obtain ⟨tm, h2⟩ := state_done _ s1 h
    obtain ⟨ch, hch, rfl⟩ := readC_done s s1 tm h2
    simp only [State.out, setChan_c]
    rcases out_setChan s s.C s.c ch with h3 | ⟨h3, h4⟩
    · rw [h3]
    · rw [h4, ← h3]
      rcases recv_done_buf 0 tm _ ch hch with h5 | ⟨_, _, h5, _⟩
      · rw [h5]
        exact List.suffix_cons _ _
      · rw [h5]

/-! ## Executions -/

theorem run_cons_done (s u : State) (e : Event) (es : List Event)
    (h : run s (e :: es) = .done u) :
    ∃ s1, step s e = .done s1 ∧ run s1 es = .done u := by
  simp only [run] at h
  cases hs : step s e with
  | done s1 => rw [hs] at h; exact ⟨s1, rfl, h⟩
  | blocked => rw [hs] at h; cases h
  | panic => rw [hs] at h; cases h

theorem run_append (s : State) (es fs : List Event) :
    run s (es ++ fs) =
      match run s es with
      | .done s1 => run s1 fs
      | .blocked => .blocked
      | .panic => .panic := by
  induction es generalizing s with
  | nil => rfl
  | cons e es ih =>
    simp only [List.cons_append, run]
    cases step s e with
    | done s1 => exact ih s1
    | blocked => rfl
    | panic => rfl

theorem Stopped_congr (s s1 : State) (ht : s1.t = s.t) (htm : s1.timers = s.timers) :
    s1.Stopped = s.Stopped := by
  simp [State.Stopped, State.Running, ht, htm]

/-- While the ticker is Stopped and the loop takes no command, no tick is
delivered, the ticker state is kept and nothing is published. -/
theorem run_stopped (s u : State) (es : List Event) (hst : s.Stopped = true)
    (hnc : Event.loop .command ∉ es) (h : run s es = .done u) :
    u.t = s.t ∧ u.timers = s.timers ∧ u.d = s.d ∧ u.Stopped = true ∧
      delivered es = [] ∧ u.out <:+ s.out := by
  induction es generalizing s with
  | nil =>
    simp only [run] at h
    injection h with h
    subst h
    exact ⟨rfl, rfl, rfl, hst, rfl, List.suffix_refl _⟩
  | cons e es ih =>
    obtain ⟨s1, h1, h2⟩ := run_cons_done s u e es h
    have hne : e ≠ .loop .command := fun he => hnc (he ▸ List.mem_cons_self _ _)
    have hnc2 : Event.loop .command ∉ es := fun hm => hnc (List.mem_cons_of_mem _ hm)
    obtain ⟨ft, ftm, fd, _, _⟩ := step_frame s s1 e hne h1
    have hnf : ∀ tm, e ≠ .loop (.timerFired tm) := by
      intro tm he
      subst he
      obtain ⟨hr, _⟩ := timerFired_done s s1 tm h1
      simp [State.Stopped, hr] at hst
    have hst1 : s1.Stopped = true := by rw [Stopped_congr s s1 ft ftm]; exact hst
    obtain ⟨a, b, c, d, e2, f⟩ := ih s1 hst1 hnc2 h2
    refine ⟨a.trans ft, b.trans ftm, c.trans fd, d, ?_, f.trans (step_out_suffix s s1 e hnf h1)⟩
    cases e with
    | loop ev =>
      cases ev with
      | command => exact e2
      | timerFired tm => exact absurd rfl (hnf tm)
    | stop => exact e2
    | resume => exact e2
    | adjust d => exact e2
    | read => exact e2

/-- Timer fires and consumer reads leave the handle, the heap of tickers, the
interval and the command channel alone. -/
theorem run_ticks_reads_frame (s u : State) (es : List Event)
    (hes : ∀ e ∈ es, e = .read ∨ ∃ tm, e = .loop (.timerFired tm))
    (h : run s es = .done u) :
    u.t = s.t ∧ u.timers = s.timers ∧ u.d = s.d ∧ u.dc = s.dc ∧ u.c = s.c ∧ u.C = s.C := by
  induction es generalizing s with
  | nil =>
    simp only [run] at h
    injection h with h
    subst h
    exact ⟨rfl, rfl, rfl, rfl, rfl, rfl⟩
  | cons e es ih =>
    obtain ⟨s1, h1, h2⟩ := run_cons_done s u e es h
    obtain ⟨a, b, c, d, e2, f⟩ := ih s1 (fun e1 he1 => hes e1 (List.mem_cons_of_mem _ he1)) h2
    have hs1 : s1.t = s.t ∧ s1.timers = s.timers ∧ s1.d = s.d ∧ s1.dc = s.dc ∧
        s1.c = s.c ∧ s1.C = s.C := by
      rcases hes e (List.mem_cons_self _ _) with rfl | ⟨tm, rfl⟩
      · obtain ⟨tm, h3⟩ := state_done _ s1 h1
        obtain ⟨ch, _, rfl⟩ := readC_done s s1 tm h3
        simp
      · obtain ⟨_, h3⟩ := timerFired_done s s1 tm h1
        obtain ⟨ch, _, rfl⟩ := onTick_done s s1 tm h3
        simp
    obtain ⟨a1, b1, c1, d1, e1, f1⟩ := hs1
    exact ⟨a.trans a1, b.trans b1, c.trans c1, d.trans d1, e2.trans e1, f.trans f1⟩

/-! ## The invariant holds along every execution -/

theorem NewTicker_done (d : Duration) (s : State) (h : NewTicker d = .done s) :
    0 < d ∧ s = {
      chans := [Chan.make 1], timers := [{ interval := d, live := true }],
      C := some 0, c := some 0, t := some 0, dc := Chan.make 1, d := d } := by
  unfold NewTicker at h
  by_cases hd : d ≤ 0
  · simp [hd] at h
  · simp only [hd, if_false, timeNewTicker] at h
    injection h with h
    exact ⟨not_le.mp hd, h.symm⟩

theorem NewTicker_pos (d : Duration) (hd : 0 < d) :
    NewTicker d = .done {
      chans := [Chan.make 1], timers := [{ interval := d, live := true }],
      C := some 0, c := some 0, t := some 0, dc := Chan.make 1, d := d } := by
  have h : ¬ d ≤ 0 := not_le.mpr hd
  simp [NewTicker, h, timeNewTicker]

theorem Inv_init (d : Duration) (s : State) (h : NewTicker d = .done s) : Inv s := by
  obtain ⟨hd, rfl⟩ := NewTicker_done d s h
  refine ⟨rfl, ⟨0, Chan.make 1, rfl, rfl, rfl, rfl, by simp [Chan.make]⟩, rfl, rfl,
    by simp [Chan.make], hd, ⟨0, rfl, rfl⟩, ?_, ?_, ?_⟩
  · intro j tk hj _
    cases j with
    | zero => rfl
    | succ j => simp at hj
  · intro tk htk
    simp only [List.mem_singleton] at htk
    subst htk
    exact hd
  · intro i tk hi htk
    injection hi with hi
    subst hi
    simp only [List.getElem?_cons_zero] at htk
    injection htk with htk
    subst htk
    rfl

/-- Replacing the command channel by a valid one keeps the invariant. -/
theorem Inv_dc (s : State) (dc : Chan Duration) (h : Inv s) (h1 : dc.cap = 1)
    (h2 : dc.closed = false) (h3 : dc.buf.length ≤ 1) : Inv { s with dc := dc } :=
  ⟨h.sameChan, h.outChan, h1, h2, h3, h.dPos, h.handle, h.oneLive, h.intervals, h.cadence⟩

theorem send_done_valid {α : Type} (ch ch1 : Chan α) (v : α) (h : ch.send v = .done ch1)
    (hcap : ch.cap = 1) :
    ch.buf = [] ∧ ch1.buf = [v] ∧ ch1.cap = 1 ∧ ch1.closed = false := by
  unfold Chan.send at h
  split at h
  · cases h
  · rename_i hc
    split at h
    · rename_i hl
      injection h with h
      subst h
      rw [hcap] at hl
      have hb : ch.buf = [] := List.length_eq_zero.mp (by omega)
      simp only [Bool.not_eq_true] at hc
      exact ⟨hb, by simp [hb], hcap, hc⟩
    · cases h

theorem trySend_done_valid {α : Type} (ch ch1 : Chan α) (v : α)
    (h : ch.trySend v = .done ch1) (hcap : ch.cap = 1) :
    ch1.cap = 1 ∧ ch1.closed = false ∧
      ((ch.buf = [] ∧ ch1.buf = [v]) ∨ (ch.buf ≠ [] ∧ ch1 = ch)) := by
  unfold Chan.trySend at h
  split at h
  · cases h
  · rename_i hc
    simp only [Bool.not_eq_true] at hc
    split at h
    · rename_i hl
      injection h with h
      subst h
      rw [hcap] at hl
      have hb : ch.buf = [] := List.length_eq_zero.mp (by omega)
      exact ⟨hcap, hc, Or.inl ⟨hb, by simp [hb]⟩⟩
    · rename_i hl
      injection h with h
      subst h
      rw [hcap] at hl
      refine ⟨hcap, hc, Or.inr ⟨?_, rfl⟩⟩
      intro hb
      rw [hb] at hl
      simp at hl

/-- Replacing the output channel object by a valid one keeps the invariant. -/
theorem Inv_setChan (s : State) (ch : Chan Time) (h : Inv s) (h1 : ch.cap = 1)
    (h2 : ch.closed = false) (h3 : ch.buf.length ≤ 1) : Inv (s.setChan s.c ch) := by
  obtain ⟨k, ch0, hk, hch0, _⟩ := h.outChan
  have hlt : k < s.chans.length := by
    rcases List.getElem?_eq_some_iff.mp hch0 with ⟨hlt, _⟩
    exact hlt
  refine ⟨by simpa using h.sameChan, ⟨k, ch, by simpa using hk, ?_, h1, h2, h3⟩,
    by simpa using h.dcCap, by simpa using h.dcOpen, by simpa using h.dcLen,
    by simpa using h.dPos, by simpa using h.handle, by simpa using h.oneLive,
    by simpa using h.intervals, by simpa using h.cadence⟩
  rw [hk]
  simp [State.setChan, List.getElem?_set, hlt]

/-- The output channel object in a state that satisfies the invariant. -/
theorem Inv_chanAt (s : State) (h : Inv s) :
    (s.chanAt s.c).cap = 1 ∧ (s.chanAt s.c).closed = false ∧
      (s.chanAt s.c).buf.length ≤ 1 := by
  obtain ⟨k, ch0, hk, hch0, a, b, c⟩ := h.outChan
  have : s.chanAt s.c = ch0 := by simp [State.chanAt, hk, hch0]
  rw [this]
  exact ⟨a, b, c⟩

/-- Stopping the ticker `t.t` points to keeps the invariant. -/
theorem Inv_stop (s : State) (i : Nat) (h : Inv s) :
    Inv { s with timers := timeTickerStop s.timers i } := by
  refine ⟨h.sameChan, h.outChan, h.dcCap, h.dcOpen, h.dcLen, h.dPos, ?_, ?_, ?_, ?_⟩
  · obtain ⟨i0, h1, h2⟩ := h.handle
    exact ⟨i0, h1, by simpa [timeTickerStop_length] using h2⟩
  · intro j tk hj hl
    simp only [timeTickerStop_getElem?_eq] at hj
    cases h0 : s.timers[j]? with
    | none => simp [h0] at hj
    | some tk0 =>
      simp only [h0, Option.map_some'] at hj
      injection hj with hj
      by_cases hij : i = j
      · simp only [hij, if_true] at hj
        rw [← hj] at hl
        cases hl
      · simp only [hij, if_false] at hj
        subst hj
        exact h.oneLive j tk0 h0 hl
  · intro tk htk
    obtain ⟨tk0, hm, he⟩ := timeTickerStop_interval _ _ _ htk
    rw [← he]
    exact h.intervals tk0 hm
  · intro i1 tk hi1 htk
    simp only [timeTickerStop_getElem?_eq] at htk
    cases h0 : s.timers[i1]? with
    | none => simp [h0] at htk
    | some tk0 =>
      simp only [h0, Option.map_some'] at htk
      injection htk with htk
      have := h.cadence i1 tk0 hi1 h0
      rw [← htk]
      split <;> exact this

/-- Stopping the ticker `t.t` points to and creating a new one with a positive
interval, which becomes the interval of the loop, keeps the invariant. -/
theorem Inv_restart (s : State) (i : Nat) (d1 : Duration) (h : Inv s) (ht : s.t = some i)
    (hd : 0 < d1) :
    Inv { s with
      timers := timeTickerStop s.timers i ++ [{ interval := d1, live := true }],
      t := some s.timers.length, d := d1 } := by
  have hs := Inv_stop s i h
  have hlen := timeTickerStop_length s.timers i
  refine ⟨h.sameChan, h.outChan, h.dcCap, h.dcOpen, h.dcLen, hd, ?_, ?_, ?_, ?_⟩
  · exact ⟨s.timers.length, rfl, by simp [hlen]⟩
  · intro j tk hj hl
    by_cases hjl : j < s.timers.length
    · have hj2 : (timeTickerStop s.timers i)[j]? = some tk := by
        rw [← hj]
        exact (List.getElem?_append_left (hlen ▸ hjl)).symm
      have h3 := hs.oneLive j tk hj2 hl
      have h4 : s.t = some j := h3
      have hij : i = j := by
        rw [ht] at h4
        injection h4
      subst hij
      rw [timeTickerStop_getElem?_eq] at hj2
      cases h0 : s.timers[i]? with
      | none => simp [h0] at hj2
      | some tk0 =>
        simp only [h0, Option.map_some', if_true] at hj2
        injection hj2 with hj2
        rw [← hj2] at hl
        cases hl
    · have hlt : j < (timeTickerStop s.timers i ++
          [({ interval := d1, live := true } : GoTicker)]).length := by
        rcases List.getElem?_eq_some_iff.mp hj with ⟨hlt, _⟩
        exact hlt
      simp only [List.length_append, hlen, List.length_singleton] at hlt
      have : j = s.timers.length := by omega
      rw [this]
  · intro tk htk
    rcases List.mem_append.mp htk with hm | hm
    · exact hs.intervals tk hm
    · simp only [List.mem_singleton] at hm
      subst hm
      exact hd
  · intro i1 tk hi1 htk
    have hi1b : some s.timers.length = some i1 := hi1
    injection hi1b with hi1b
    subst hi1b
    have htk2 : (timeTickerStop s.timers i ++
        [({ interval := d1, live := true } : GoTicker)])[s.timers.length]? = some tk := htk
    rw [getElem?_append_new] at htk2
    injection htk2 with htk2
    rw [← htk2]

theorem recv_done_valid {α : Type} (zero v : α) (ch ch1 : Chan α)
    (h : ch.recv zero = .done (v, ch1)) (hopen : ch.closed = false) :
    ch.buf = v :: ch1.buf ∧ ch1.cap = ch.cap ∧ ch1.closed = false := by
  unfold Chan.recv at h
  split at h
  · rename_i w rest hb
    injection h with h
    injection h with h1 h2
    subst h1
    subst h2
    exact ⟨hb, rfl, hopen⟩
  · rw [hopen] at h
    simp at h

/-- The command case of the loop keeps the invariant. -/
theorem Inv_command (s s1 : State) (h : Inv s) (hs : loopIter s .command = .done s1) :
    Inv s1 := by
  obtain ⟨i, nextd, dc, ht, hr, hcase⟩ := command_done s s1 hs
  obtain ⟨hb, hcap, hopen⟩ := recv_done_valid 0 nextd s.dc dc hr h.dcOpen
  have hlen : dc.buf.length ≤ 1 := by
    have := h.dcLen
    rw [hb] at this
    simp only [List.length_cons] at this
    omega
  have h1 : Inv { s with dc := dc } := Inv_dc s dc h (hcap.trans h.dcCap) hopen hlen
  have ht1 : ({ s with dc := dc } : State).t = some i := ht
  rcases hcase with ⟨_, rfl⟩ | ⟨hp, rfl⟩ | ⟨_, hd, rfl⟩ | ⟨_, hd, rfl⟩
  · exact Inv_stop _ i h1
  · exact Inv_restart _ i nextd h1 ht1 hp
  · exact Inv_restart _ i s.d h1 ht1 hd
  · exact Inv_stop _ i h1

/-- Every action keeps the invariant. -/
theorem Inv_step (s s1 : State) (e : Event) (h : Inv s) (hs : step s e = .done s1) :
    Inv s1 := by
  cases e with
  | loop ev =>
    cases ev with
    | command => exact Inv_command s s1 h hs
    | timerFired tm =>
      obtain ⟨_, h2⟩ := timerFired_done s s1 tm hs
      obtain ⟨ch, hch, rfl⟩ := onTick_done s s1 tm h2
      obtain ⟨a, b, c⟩ := Inv_chanAt s h
      obtain ⟨a1, b1, c1⟩ := trySend_done_valid _ ch tm hch a
      refine Inv_setChan s ch h a1 b1 ?_
      rcases c1 with ⟨_, c1⟩ | ⟨_, rfl⟩
      · simp [c1]
      · exact c
  | stop =>
    obtain ⟨dc, hdc, rfl⟩ := Stop_done s s1 hs
    obtain ⟨_, a, b, c⟩ := send_done_valid _ dc _ hdc h.dcCap
    exact Inv_dc s dc h b c (by simp [a])
  | resume =>
    obtain ⟨dc, hdc, rfl⟩ := Resume_done s s1 hs
    obtain ⟨_, a, b, c⟩ := send_done_valid _ dc _ hdc h.dcCap
    exact Inv_dc s dc h b c (by simp [a])
  | adjust d =>
    obtain ⟨r, h2⟩ := state_done _ s1 hs
    rcases Adjust_done s s1 d r h2 with ⟨_, _, rfl⟩ | ⟨_, _, dc, hdc, rfl⟩
    · exact h
    · obtain ⟨_, a, b, c⟩ := send_done_valid _ dc _ hdc h.dcCap
      exact Inv_dc s dc h b c (by simp [a])
  | read =>
    obtain ⟨tm, h2⟩ := state_done _ s1 hs
    obtain ⟨ch, hch, rfl⟩ := readC_done s s1 tm h2
    rw [h.sameChan] at hch ⊢
    obtain ⟨a, b, c⟩ := Inv_chanAt s h
    obtain ⟨a1, b1, c1⟩ := recv_done_valid 0 tm _ ch hch b
    refine Inv_setChan s ch h (b1.trans a) c1 ?_
    rw [a1] at c
    simp only [List.length_cons] at c
    omega

theorem Inv_run (s u : State) (es : List Event) (h : Inv s) (hr : run s es = .done u) :
    Inv u := by
  induction es generalizing s with
  | nil =>
    simp only [run] at hr
    injection hr with hr
    subst hr
    exact h
  | cons e es ih =>
    obtain ⟨s1, h1, h2⟩ := run_cons_done s u e es hr
    exact ih s1 (Inv_step s s1 e h h1) h2

theorem Inv_reachable (d0 : Duration) (s : State) (h : Reachable d0 s) : Inv s := by
  obtain ⟨s0, es, h0, hr⟩ := h
  exact Inv_run s0 s es (Inv_init d0 s0 h0) hr

/-! ## What the consumer receives -/

theorem consumed_read (s s1 : State) (tm : Time) (es : List Event)
    (h : readC s = .done (tm, s1)) :
    consumed s (.read :: es) = tm :: consumed s1 es := by
  simp [consumed, step, h, Outcome.state]

theorem consumed_other (s s1 : State) (e : Event) (es : List Event) (hne : e ≠ .read)
    (h : step s e = .done s1) :
    consumed s (e :: es) = consumed s1 es := by
  cases e with
  | read => exact absurd rfl hne
  | loop ev => simp [consumed, h]
  | stop => simp [consumed, h]
  | resume => simp [consumed, h]
  | adjust d => simp [consumed, h]

theorem consumed_stuck (s : State) (e : Event) (es : List Event)
    (h : ∀ s1, step s e ≠ .done s1) :
    consumed s (e :: es) = [] := by
  cases hs : step s e with
  | done s1 => exact absurd hs (h s1)
  | blocked => simp [consumed, hs]
  | panic => simp [consumed, hs]

/-- A read by the consumer, in a state that satisfies the invariant, takes the
oldest value of the output channel. -/
theorem readC_out (s s1 : State) (tm : Time) (hi : Inv s) (h : readC s = .done (tm, s1)) :
    s.out = tm :: s1.out := by
  obtain ⟨ch, hch, rfl⟩ := readC_done s s1 tm h
  rw [hi.sameChan] at hch ⊢
  obtain ⟨_, b, _⟩ := Inv_chanAt s hi
  obtain ⟨a1, _, _⟩ := recv_done_valid 0 tm _ ch hch b
  obtain ⟨k, ch0, hk, hch0, _⟩ := hi.outChan
  have hlt : k < s.chans.length := by
    rcases List.getElem?_eq_some_iff.mp hch0 with ⟨hlt, _⟩
    exact hlt
  simp only [State.out, setChan_c]
  rw [a1, hk, chanAt_setChan_self s k ch hlt]

/-- As long as neither `Resume` nor `Adjust` is called, a Stopped ticker with
only Stop commands waiting hands the consumer nothing but what is already in
the output channel. -/
theorem consumed_quiet (s : State) (es : List Event) (hq : Quiet s)
    (hes : ∀ e ∈ es, e ≠ .resume ∧ ∀ d, e ≠ .adjust d) :
    consumed s es <+: s.out := by
  induction es generalizing s with
  | nil => exact List.nil_prefix
  | cons e es ih =>
    obtain ⟨hi, hst, hdc⟩ := hq
    have hes2 : ∀ e ∈ es, e ≠ .resume ∧ ∀ d, e ≠ .adjust d :=
      fun e1 h1 => hes e1 (List.mem_cons_of_mem _ h1)
    have he := hes e (List.mem_cons_self _ _)
    cases hs : step s e with
    | blocked =>
      rw [consumed_stuck s e es (by rw [hs]; intro s1 h; cases h)]
      exact List.nil_prefix
    | panic =>
      rw [consumed_stuck s e es (by rw [hs]; intro s1 h; cases h)]
      exact List.nil_prefix
    | done s1 =>
      have hi1 : Inv s1 := Inv_step s s1 e hi hs
      cases e with
      | resume => exact absurd rfl he.1
      | adjust d => exact absurd rfl (he.2 d)
      | stop =>
        rw [consumed_other s s1 _ es (by simp) hs]
        obtain ⟨dc, hdc1, rfl⟩ := Stop_done s s1 hs
        obtain ⟨_, a, _, _⟩ := send_done_valid _ dc _ hdc1 hi.dcCap
        refine ih _ ⟨hi1, hst, ?_⟩ hes2
        intro v hv
        simp only [a, List.mem_singleton] at hv
        subst hv
        decide
      | read =>
        obtain ⟨tm, h2⟩ := state_done _ s1 hs
        rw [consumed_read s s1 tm es h2, readC_out s s1 tm hi h2]
        obtain ⟨ft, ftm, _, _, _⟩ := step_frame s s1 .read (by simp) hs
        have hq1 : Quiet s1 := by
          refine ⟨hi1, (Stopped_congr s s1 ft ftm).trans hst, ?_⟩
          obtain ⟨ch, _, rfl⟩ := readC_done s s1 tm h2
          simpa using hdc
        exact (List.prefix_cons_inj tm).mpr (ih s1 hq1 hes2)
      | loop ev =>
        cases ev with
        | timerFired tm =>
          obtain ⟨hr, _⟩ := timerFired_done s s1 tm hs
          simp [State.Stopped, hr] at hst
        | command =>
          rw [consumed_other s s1 _ es (by simp) hs]
          have hout : s1.out <:+ s.out := step_out_suffix s s1 _ (by simp) hs
          obtain ⟨i, nextd, dc, ht, hr, hcase⟩ := command_done s s1 hs
          obtain ⟨hb, _, _⟩ := recv_done_valid 0 nextd s.dc dc hr hi.dcOpen
          have hneg : nextd < 0 := hdc nextd (by rw [hb]; exact List.mem_cons_self _ _)
          have hdc1 : ∀ v ∈ dc.buf, v < 0 :=
            fun v hv => hdc v (by rw [hb]; exact List.mem_cons_of_mem _ hv)
          rcases hcase with ⟨_, rfl⟩ | ⟨hp, _⟩ | ⟨hz, _⟩ | ⟨hz, _⟩
          · have hq1 : Quiet { s with dc := dc, timers := timeTickerStop s.timers i } := by
              refine ⟨hi1, ?_, hdc1⟩
              simp [State.Stopped, State.Running, ht, tickerDelivers_stop_self]
            exact ih _ hq1 hes2
          · exact absurd hneg (not_lt.mpr (le_of_lt hp))
          · rw [hz] at hneg
            exact absurd hneg (lt_irrefl _)
          · rw [hz] at hneg
            exact absurd hneg (lt_irrefl _)

/-- A read by the consumer, in a state that satisfies the invariant and whose
output channel is not empty, completes with the oldest value. -/
theorem readC_of_out (s : State) (tm : Time) (rest : List Time) (hi : Inv s)
    (h : s.out = tm :: rest) : ∃ s1, readC s = .done (tm, s1) ∧ s1.out = rest := by
  have hr : ∃ ch, (s.chanAt s.C).recv 0 = .done (tm, ch) := by
    rw [hi.sameChan]
    simp only [State.out] at h
    simp [Chan.recv, h]
  obtain ⟨ch, hch⟩ := hr
  have h1 : readC s = .done (tm, s.setChan s.C ch) := by
    simp [readC, hch]
  refine ⟨_, h1, ?_⟩
  have h2 := readC_out s _ tm hi h1
  rw [h] at h2
  injection h2 with _ h2
  exact h2.symm

/-! ## The timer case of the loop -/

theorem loopIter_timerFired_eq (s : State) (tm : Time) (hrun : s.Running = true) :
    loopIter s (.timerFired tm) = onTick s tm := by
  unfold State.Running at hrun
  unfold loopIter
  split
  · rename_i h0
    simp [h0] at hrun
  · rename_i i0 h0
    simp only [h0] at hrun
    simp [hrun]

/-- The output channel after the non-blocking send, in a state that satisfies the
invariant: the tick went into the empty channel, or the channel was full and
the state is unchanged. -/
theorem onTick_out (s s1 : State) (tm : Time) (hi : Inv s) (h : onTick s tm = .done s1) :
    (s.out = [] ∧ s1.out = [tm]) ∨ (s.out ≠ [] ∧ s1 = s) := by
  obtain ⟨ch, hch, rfl⟩ := onTick_done s s1 tm h
  obtain ⟨a, _, _⟩ := Inv_chanAt s hi
  obtain ⟨_, _, c1⟩ := trySend_done_valid _ ch tm hch a
  obtain ⟨k, ch0, hk, hch0, _⟩ := hi.outChan
  have hlt : k < s.chans.length := by
    rcases List.getElem?_eq_some_iff.mp hch0 with ⟨hlt, _⟩
    exact hlt
  rcases c1 with ⟨c1, c2⟩ | ⟨c1, rfl⟩
  · left
    refine ⟨c1, ?_⟩
    simp only [State.out, setChan_c]
    rw [hk, chanAt_setChan_self s k ch hlt, c2]
  · right
    refine ⟨c1, ?_⟩
    rw [hk]
    exact setChan_chanAt_self s k

/-- The timer case always completes while the ticker is Running. -/
theorem onTick_total (s : State) (tm : Time) (hi : Inv s) : ∃ s1, onTick s tm = .done s1 := by
  obtain ⟨_, b, _⟩ := Inv_chanAt s hi
  have h : ∃ ch, (s.chanAt s.c).trySend tm = .done ch := by
    unfold Chan.trySend
    rw [b]
    by_cases hl : (s.chanAt s.c).buf.length < (s.chanAt s.c).cap
    · simp [hl]
    · simp [hl]
  obtain ⟨ch, hch⟩ := h
  exact ⟨s.setChan s.c ch, by simp [onTick, hch]⟩

/-- Timer fires on a full output channel change nothing. -/
theorem run_fires_full (s : State) (tms : List Time) (tm0 : Time) (hi : Inv s)
    (hrun : s.Running = true) (hout : s.out = [tm0]) :
    run s (tms.map (fun x => Event.loop (.timerFired x))) = .done s := by
  induction tms with
  | nil => rfl
  | cons tm tms ih =>
    obtain ⟨s1, h1⟩ := onTick_total s tm hi
    have h2 : s1 = s := by
      rcases onTick_out s s1 tm hi h1 with ⟨h3, _⟩ | ⟨_, h3⟩
      · rw [hout] at h3
        cases h3
      · exact h3
    subst h2
    simp only [List.map_cons, run, step, loopIter_timerFired_eq s1 tm hrun, h1]
    exact ih

/-! ## The reads are a subsequence of the deliveries -/

theorem delivered_not_fired (e : Event) (es : List Event)
    (hne : ∀ tm, e ≠ .loop (.timerFired tm)) : delivered (e :: es) = delivered es := by
  cases e with
  | loop ev =>
    cases ev with
    | command => rfl
    | timerFired tm => exact absurd rfl (hne tm)
  | stop => rfl
  | resume => rfl
  | adjust d => rfl
  | read => rfl

/-- In an execution, what the consumer received followed by what is left in the
output channel is a subsequence of what the channel held at the start followed
by what the tickers delivered. -/
theorem consumed_sublist (s u : State) (es : List Event) (hi : Inv s)
    (hr : run s es = .done u) :
    (consumed s es ++ u.out).Sublist (s.out ++ delivered es) := by
  induction es generalizing s with
  | nil =>
    simp only [run] at hr
    injection hr with hr
    subst hr
    simp [consumed, delivered]
  | cons e es ih =>
    obtain ⟨s1, h1, h2⟩ := run_cons_done s u e es hr
    have hi1 : Inv s1 := Inv_step s s1 e hi h1
    have ih1 := ih s1 hi1 h2
    by_cases hread : e = .read
    · subst hread
      obtain ⟨tm, h3⟩ := state_done _ s1 h1
      rw [consumed_read s s1 tm es h3, readC_out s s1 tm hi h3,
        delivered_not_fired _ es (by simp)]
      exact List.Sublist.cons₂ tm ih1
    · rw [consumed_other s s1 e es hread h1]
      by_cases hfire : ∃ tm, e = .loop (.timerFired tm)
      · obtain ⟨tm, rfl⟩ := hfire
        obtain ⟨_, h3⟩ := timerFired_done s s1 tm h1
        have hd : delivered (Event.loop (.timerFired tm) :: es) = tm :: delivered es := rfl
        rw [hd]
        rcases onTick_out s s1 tm hi h3 with ⟨h4, h5⟩ | ⟨_, rfl⟩
        · rw [h5] at ih1
          rw [h4]
          exact ih1
        · exact ih1.trans
            (List.Sublist.append (List.Sublist.refl _) (List.sublist_cons_self _ _))
      · have hnf : ∀ tm, e ≠ .loop (.timerFired tm) := fun tm he => hfire ⟨tm, he⟩
        rw [delivered_not_fired e es hnf]
        exact ih1.trans (List.Sublist.append (step_out_suffix s s1 e hnf h1).sublist
          (List.Sublist.refl _))

/-! ## Counting the live tickers -/

/-- A heap on which only the ticker at one address can be live holds at most
one live ticker. -/
theorem filter_live_le_one (l : List GoTicker) (i : Nat)
    (h : ∀ j tk, l[j]? = some tk → tk.live = true → j = i) :
    (l.filter (·.live)).length ≤ 1 := by
  induction l generalizing i with
  | nil => simp
  | cons a l ih =>
    by_cases ha : a.live = true
    · have hnil : l.filter (·.live) = [] := by
        rw [List.filter_eq_nil_iff]
        intro tk htk hl
        obtain ⟨j, hj⟩ := List.getElem?_of_mem htk
        have h0 : 0 = i := h 0 a (by simp) ha
        have h1 : j + 1 = i := h (j + 1) tk (by simpa using hj) hl
        omega
      simp [List.filter_cons, ha, hnil]
    · have := ih (i - 1) (by
        intro j tk hj hl
        have h1 : j + 1 = i := h (j + 1) tk (by simpa using hj) hl
        omega)
      simpa [List.filter_cons, ha] using this

/-- Once the ticker `t.t` points to is stopped, no ticker on the heap is live. -/
theorem filter_live_stop (s : State) (i : Nat) (hi : Inv s) (ht : s.t = some i) :
    (timeTickerStop s.timers i).filter (·.live) = [] := by
  rw [List.filter_eq_nil_iff]
  intro tk htk hl
  obtain ⟨j, hj⟩ := List.getElem?_of_mem htk
  have h1 : s.t = some j := (Inv_stop s i hi).oneLive j tk hj hl
  rw [ht] at h1
  injection h1 with h1
  subst h1
  rw [timeTickerStop_getElem?_eq] at hj
  cases h0 : s.timers[i]? with
  | none => simp [h0] at hj
  | some tk0 =>
    simp only [h0, Option.map_some', if_true] at hj
    injection hj with hj
    rw [← hj] at hl
    cases hl

theorem liveCount_le_one (s : State) (hi : Inv s) : s.liveCount ≤ 1 := by
  obtain ⟨i, ht, _⟩ := hi.handle
  refine filter_live_le_one s.timers i ?_
  intro j tk hj hl
  have := hi.oneLive j tk hj hl
  rw [ht] at this
  injection this with this
  exact this.symm

/-- After the restart of a command `≥ 0` exactly one ticker is live. -/
theorem liveCount_restart (s : State) (i : Nat) (d1 : Duration) (hi : Inv s)
    (ht : s.t = some i) :
    ((timeTickerStop s.timers i ++ [({ interval := d1, live := true } : GoTicker)]).filter
      (·.live)).length = 1 := by
  rw [List.filter_append, filter_live_stop s i hi ht]
  simp

/-- Stopping a ticker that does not deliver changes nothing on the heap. -/
theorem timeTickerStop_of_not_delivers (timers : List GoTicker) (i : Nat)
    (h : tickerDelivers timers i = false) : timeTickerStop timers i = timers := by
  unfold tickerDelivers at h
  unfold timeTickerStop
  cases h0 : timers[i]? with
  | none => rfl
  | some tk =>
    simp only [h0] at h
    have htk : ({ tk with live := false } : GoTicker) = tk := by
      cases tk with
      | mk interval live =>
        simp only at h
        simp [h]
    simp only [htk]
    exact set_getElem?_self timers i tk h0

/-- Once the ticker `t.t` points to is stopped, no ticker on the heap delivers. -/
theorem tickerDelivers_stop_all (s : State) (i j : Nat) (hi : Inv s) (ht : s.t = some i) :
    tickerDelivers (timeTickerStop s.timers i) j = false := by
  have hnil := filter_live_stop s i hi ht
  rw [List.filter_eq_nil_iff] at hnil
  unfold tickerDelivers
  cases h0 : (timeTickerStop s.timers i)[j]? with
  | none => rfl
  | some tk =>
    have := hnil tk (List.getElem?_mem h0)
    simpa using this

theorem tickerDelivers_append_old (timers extra : List GoTicker) (j : Nat)
    (hj : j < timers.length) :
    tickerDelivers (timers ++ extra) j = tickerDelivers timers j := by
  unfold tickerDelivers
  rw [List.getElem?_append_left hj]

/-! ## No action closes a channel, none panics -/

theorem trySend_closed {α : Type} (ch ch1 : Chan α) (v : α) (h : ch.trySend v = .done ch1) :
    ch1.closed = ch.closed := by
  unfold Chan.trySend at h
  split at h
  · cases h
  · split at h <;> (injection h with h; subst h; rfl)

theorem send_closed {α : Type} (ch ch1 : Chan α) (v : α) (h : ch.send v = .done ch1) :
    ch1.closed = ch.closed := by
  unfold Chan.send at h
  split at h
  · cases h
  · split at h
    · injection h with h
      subst h
      rfl
    · cases h

theorem recv_closed {α : Type} (zero v : α) (ch ch1 : Chan α)
    (h : ch.recv zero = .done (v, ch1)) : ch1.closed = ch.closed := by
  rcases recv_done_buf zero v ch ch1 h with hb | ⟨_, _, h1, _⟩
  · unfold Chan.recv at h
    rw [hb] at h
    simp only at h
    injection h with h
    injection h with _ h
    rw [← h]
  · rw [h1]

/-- Storing at `r` a channel as open or closed as the one that was there leaves
every channel of the heap as open or closed as it was. -/
theorem closed_setChan (s : State) (r r2 : Option Nat) (ch : Chan Time)
    (hc : ch.closed = (s.chanAt r).closed) :
    ((s.setChan r ch).chanAt r2).closed = (s.chanAt r2).closed := by
  cases r with
  | none => rfl
  | some k =>
    cases r2 with
    | none => rfl
    | some j =>
      by_cases hjk : k = j
      · subst hjk
        by_cases hk : k < s.chans.length
        · rw [chanAt_setChan_self s k ch hk, hc]
        · rw [setChan_dangling s k ch hk]
      · rw [chanAt_setChan_other s j k ch hjk]

/-- The body of the command case completes whenever the handle is not nil, and
touches neither the channels of timestamps nor the command channel. -/
theorem onCommand_total (s : State) (i : Nat) (nextd : Duration) (ht : s.t = some i) :
    ∃ s1, onCommand s nextd = .done s1 ∧ s1.chans = s.chans ∧ s1.c = s.c ∧ s1.C = s.C ∧
      s1.dc = s.dc ∧ s1.t ≠ none := by
  have htn : s.t ≠ none := by rw [ht]; simp
  rcases lt_trichotomy nextd 0 with hn | hz | hp
  · exact ⟨_, onCommand_neg s i nextd ht hn, rfl, rfl, rfl, rfl, htn⟩
  · subst hz
    by_cases hd : 0 < s.d
    · exact ⟨_, onCommand_zero s i ht hd, rfl, rfl, rfl, rfl, by simp⟩
    · exact ⟨_, onCommand_zero_idle s i ht (not_lt.mp hd), rfl, rfl, rfl, rfl, htn⟩
  · exact ⟨_, onCommand_pos s i nextd ht hp, rfl, rfl, rfl, rfl, by simp⟩

/-- No action closes a channel: after any action every channel of timestamps and
the command channel are as open or closed as before. -/
theorem step_closed (s s1 : State) (e : Event) (h : step s e = .done s1) :
    (∀ r, (s1.chanAt r).closed = (s.chanAt r).closed) ∧ s1.dc.closed = s.dc.closed := by
  cases e with
  | loop ev =>
    cases ev with
    | command =>
      obtain ⟨i, nextd, dc, _, hr, hcase⟩ := command_done s s1 h
      have hdc := recv_closed 0 nextd s.dc dc hr
      rcases hcase with ⟨_, rfl⟩ | ⟨_, rfl⟩ | ⟨_, _, rfl⟩ | ⟨_, _, rfl⟩ <;>
        exact ⟨fun _ => rfl, hdc⟩
    | timerFired tm =>
      obtain ⟨_, h2⟩ := timerFired_done s s1 tm h
      obtain ⟨ch, hch, rfl⟩ := onTick_done s s1 tm h2
      exact ⟨fun r => closed_setChan s s.c r ch (trySend_closed _ ch tm hch), by simp⟩
  | stop =>
    obtain ⟨dc, hdc, rfl⟩ := Stop_done s s1 h
    exact ⟨fun _ => rfl, send_closed _ dc _ hdc⟩
  | resume =>
    obtain ⟨dc, hdc, rfl⟩ := Resume_done s s1 h
    exact ⟨fun _ => rfl, send_closed _ dc _ hdc⟩
  | adjust d =>
    obtain ⟨r, h2⟩ := state_done _ s1 h
    rcases Adjust_done s s1 d r h2 with ⟨_, _, rfl⟩ | ⟨_, _, dc, hdc, rfl⟩
    · exact ⟨fun _ => rfl, rfl⟩
    · exact ⟨fun _ => rfl, send_closed _ dc _ hdc⟩
  | read =>
    obtain ⟨tm, h2⟩ := state_done _ s1 h
    obtain ⟨ch, hch, rfl⟩ := readC_done s s1 tm h2
    exact ⟨fun r => closed_setChan s s.C r ch (recv_closed 0 tm _ ch hch), by simp⟩

theorem send_not_panic {α : Type} (ch : Chan α) (v : α) (h : ch.closed = false) :
    ch.send v ≠ .panic := by
  unfold Chan.send
  rw [h]
  simp only [Bool.false_eq_true, if_false]
  split <;> simp

theorem recv_not_panic {α : Type} (zero : α) (ch : Chan α) : ch.recv zero ≠ .panic := by
  unfold Chan.recv
  split
  · simp
  · split <;> simp

/-- In a state that satisfies the invariant no action panics. -/
theorem step_not_panic (s : State) (e : Event) (hi : Inv s) : step s e ≠ .panic := by
  obtain ⟨i, ht, _⟩ := hi.handle
  cases e with
  | loop ev =>
    cases ev with
    | command =>
      simp only [step]
      rw [loopIter_command_eq s i ht]
      have hr := recv_not_panic (0 : Duration) s.dc
      cases hrecv : s.dc.recv 0 with
      | panic => exact absurd hrecv hr
      | blocked => simp
      | done p =>
        obtain ⟨nextd, dc⟩ := p
        obtain ⟨s1, h1, _⟩ := onCommand_total { s with dc := dc } i nextd ht
        simp only [h1]
        simp
    | timerFired tm =>
      simp only [step, loopIter, ht]
      split
      · obtain ⟨s1, h1⟩ := onTick_total s tm hi
        rw [h1]
        simp
      · simp
  | stop =>
    have := send_not_panic s.dc (-1) hi.dcOpen
    simp only [step, Stop]
    cases hs : s.dc.send (-1) with
    | panic => exact absurd hs this
    | blocked => simp
    | done dc => simp
  | resume =>
    have := send_not_panic s.dc 0 hi.dcOpen
    simp only [step, Resume]
    cases hs : s.dc.send 0 with
    | panic => exact absurd hs this
    | blocked => simp
    | done dc => simp
  | adjust d =>
    have := send_not_panic s.dc d hi.dcOpen
    simp only [step, Adjust]
    split
    · simp [Outcome.state]
    · cases hs : s.dc.send d with
      | panic => exact absurd hs this
      | blocked => simp [Outcome.state]
      | done dc => simp [Outcome.state]
  | read =>
    have := recv_not_panic (0 : Time) (s.chanAt s.C)
    simp only [step, readC]
    cases hs : (s.chanAt s.C).recv 0 with
    | panic => exact absurd hs this
    | blocked => simp [Outcome.state]
    | done p =>
      obtain ⟨tm, ch⟩ := p
      simp [Outcome.state]

/-! ## Steps in logical time -/

theorem tstep_wait (ts : Timed) (dt : Duration) (h0 : 0 ≤ dt) (h1 : ts.now + dt ≤ ts.due) :
    tstep ts (.wait dt) = .done { ts with now := ts.now + dt } := by
  have h2 : ¬ dt < 0 := not_lt.mpr h0
  have h3 : ¬ ts.due < ts.now + dt := not_lt.mpr h1
  simp [tstep, h2, h3]

theorem tstep_tick_blocked (ts : Timed) (h : ts.now ≠ ts.due) : tstep ts .tick = .blocked := by
  simp [tstep, h]

theorem tstep_tick (ts : Timed) (s1 : State) (hrun : ts.st.Running = true)
    (hdue : ts.now = ts.due) (h : loopIter ts.st (.timerFired ts.due) = .done s1) :
    tstep ts .tick = .done { st := s1, now := ts.now, due := ts.due + ts.st.period } := by
  simp [tstep, hrun, hdue, h]

theorem tstep_act (ts : Timed) (e : Event) (s1 : State)
    (hne : ∀ tm, e ≠ .loop (.timerFired tm)) (h : step ts.st e = .done s1) :
    tstep ts (.act e) = .done { st := s1, now := ts.now,
                                due := if ts.st.timers.length < s1.timers.length
                                       then ts.now + s1.period else ts.due } := by
  cases e with
  | loop ev =>
    cases ev with
    | timerFired tm => exact absurd rfl (hne tm)
    | command => simp only [tstep, h]
  | stop => simp only [tstep, h]
  | resume => simp only [tstep, h]
  | adjust d => simp only [tstep, h]
  | read => simp only [tstep, h]

theorem trun_cons (ts ts1 : Timed) (e : TimedEvent) (es : List TimedEvent)
    (h : tstep ts e = .done ts1) : trun ts (e :: es) = trun ts1 es := by
  simp [trun, h]

theorem tvisited_cons (ts ts1 : Timed) (e : TimedEvent) (es : List TimedEvent)
    (h : tstep ts e = .done ts1) : tvisited ts (e :: es) = ts :: tvisited ts1 es := by
  simp [tvisited, h]

theorem untimed_wait (ts ts1 : Timed) (dt : Duration) (es : List TimedEvent)
    (h : tstep ts (.wait dt) = .done ts1) : untimed ts (.wait dt :: es) = untimed ts1 es := by
  simp [untimed, h]

theorem untimed_tick (ts ts1 : Timed) (es : List TimedEvent)
    (h : tstep ts .tick = .done ts1) :
    untimed ts (.tick :: es) = .loop (.timerFired ts.due) :: untimed ts1 es := by
  simp [untimed, h]

theorem untimed_act (ts ts1 : Timed) (e : Event) (es : List TimedEvent)
    (h : tstep ts (.act e) = .done ts1) : untimed ts (.act e :: es) = e :: untimed ts1 es := by
  simp [untimed, h]

/-- The period of the ticker created by a restart. -/
theorem period_restart (s : State) (i : Nat) (d1 dl : Duration) (dc : Chan Duration) :
    ({ s with
        dc := dc,
        timers := timeTickerStop s.timers i ++ [{ interval := d1, live := true }],
        t := some s.timers.length, d := dl } : State).period = d1 := by
  simp [State.period, getElem?_append_new]

/-- The command case on a value `≥ 0`, in a state with a positive interval:
the ticker is stopped and a new one created, with the value received as the
interval if that is positive and with the stored interval otherwise. -/
theorem command_restart (s : State) (i : Nat) (v : Duration) (rest : List Duration)
    (ht : s.t = some i) (hbuf : s.dc.buf = v :: rest) (hv : 0 ≤ v) (hd : 0 < s.d) :
    loopIter s .command = .done { s with
      dc := { s.dc with buf := rest },
      timers := timeTickerStop s.timers i ++
        [{ interval := if 0 < v then v else s.d, live := true }],
      t := some s.timers.length, d := if 0 < v then v else s.d } := by
  rw [loopIter_command s i v rest ht hbuf]
  rcases lt_or_eq_of_le hv with hp | hz
  · simp only [hp, if_true]
    exact onCommand_pos _ i v ht hp
  · subst hz
    simp only [lt_irrefl, if_false]
    exact onCommand_zero _ i ht hd

/-- An execution in logical time is an execution of the program. -/
theorem trun_untimed (ts ts1 : Timed) (es : List TimedEvent) (h : trun ts es = .done ts1) :
    run ts.st (untimed ts es) = .done ts1.st := by
  induction es generalizing ts with
  | nil =>
    simp only [trun] at h
    injection h with h
    subst h
    rfl
  | cons e es ih =>
    cases hs : tstep ts e with
    | blocked => simp [trun, hs] at h
    | panic => simp [trun, hs] at h
    | done ts2 =>
      rw [trun_cons ts ts2 e es hs] at h
      have ih2 := ih ts2 h
      cases e with
      | wait dt =>
        rw [untimed_wait ts ts2 dt es hs]
        have hst : ts2.st = ts.st := by
          simp only [tstep] at hs
          split at hs
          · cases hs
          · split at hs
            · cases hs
            · injection hs with hs
              rw [← hs]
        rw [← hst]
        exact ih2
      | tick =>
        rw [untimed_tick ts ts2 es hs]
        have hst : step ts.st (.loop (.timerFired ts.due)) = .done ts2.st := by
          simp only [tstep] at hs
          split at hs
          · split at hs
            · rename_i s1 h1
              injection hs with hs
              rw [← hs]
              exact h1
            · cases hs
            · cases hs
          · cases hs
        simp only [run, hst]
        exact ih2
      | act a =>
        rw [untimed_act ts ts2 a es hs]
        have hst : step ts.st a = .done ts2.st := by
          cases hstep : step ts.st a with
          | done s1 =>
            have hne : ∀ tm, a ≠ .loop (.timerFired tm) := by
              intro tm ha
              subst ha
              simp [tstep] at hs
            rw [tstep_act ts a s1 hne hstep] at hs
            injection hs with hs
            rw [← hs]
          | blocked =>
            cases a with
            | loop ev =>
              cases ev with
              | timerFired tm => simp [tstep] at hs
              | command => simp [tstep, hstep] at hs
            | stop => simp [tstep, hstep] at hs
            | resume => simp [tstep, hstep] at hs
            | adjust d => simp [tstep, hstep] at hs
            | read => simp [tstep, hstep] at hs
          | panic =>
            cases a with
            | loop ev =>
              cases ev with
              | timerFired tm => simp [tstep] at hs
              | command => simp [tstep, hstep] at hs
            | stop => simp [tstep, hstep] at hs
            | resume => simp [tstep, hstep] at hs
            | adjust d => simp [tstep, hstep] at hs
            | read => simp [tstep, hstep] at hs
        simp only [run, hst]
        exact ih2

/-! ## Schedules in logical time -/

theorem Running_congr (s s1 : State) (ht : s1.t = s.t) (htm : s1.timers = s.timers) :
    s1.Running = s.Running := by
  simp [State.Running, ht, htm]

theorem period_congr (s s1 : State) (ht : s1.t = s.t) (htm : s1.timers = s.timers) :
    s1.period = s.period := by
  simp [State.period, ht, htm]

/-- Right after a ticker of period `d` was created, `Resume` commands taken at
gaps shorter than `d` keep the tick from ever becoming due: the whole schedule
runs, and in every state it goes through the timer case is disabled and the
output channel holds what it held at the start. -/
theorem resumeEvery_quiet (d : Duration) (gs : List Duration) (ts : Timed)
    (hi : Inv ts.st) (hrun : ts.st.Running = true) (hdc : ts.st.dc.buf = [])
    (hd : ts.st.d = d) (hdue : ts.due = ts.now + d) (hgs : ∀ g ∈ gs, 0 ≤ g ∧ g < d) :
    (∃ ts2, trun ts (resumeEvery gs) = .done ts2 ∧ ts2.st.Running = true ∧
      ts2.st.d = d ∧ ts2.due = ts2.now + d ∧ ts2.now = ts.now + gs.sum) ∧
    ∀ u ∈ tvisited ts (resumeEvery gs), tstep u .tick = .blocked ∧ u.st.out = ts.st.out := by
  induction gs generalizing ts with
  | nil =>
    have hdpos : 0 < d := hd ▸ hi.dPos
    refine ⟨⟨ts, rfl, hrun, hd, hdue, by simp⟩, ?_⟩
    intro u hu
    simp only [resumeEvery, tvisited, List.mem_singleton] at hu
    subst hu
    refine ⟨tstep_tick_blocked u ?_, rfl⟩
    rw [hdue]
    intro h
    linarith
  | cons g gs ih =>
    have hdpos : 0 < d := hd ▸ hi.dPos
    obtain ⟨hg0, hgd⟩ := hgs g (List.mem_cons_self _ _)
    obtain ⟨i, ht, _⟩ := hi.handle
    -- time passes by `g`
    have e1 : tstep ts (.wait g) = .done { ts with now := ts.now + g } :=
      tstep_wait ts g hg0 (by rw [hdue]; linarith)
    -- the call of `Resume`
    have hsend : Resume ts.st = .done { ts.st with dc := { ts.st.dc with buf := [0] } } := by
      simp [Resume, Chan.send, hi.dcOpen, hdc, hi.dcCap]
    have e2 : tstep { ts with now := ts.now + g } (.act .resume) =
        .done { st := { ts.st with dc := { ts.st.dc with buf := [0] } },
                now := ts.now + g, due := ts.due } := by
      rw [tstep_act { ts with now := ts.now + g } .resume _ (by simp) hsend]
      simp
    -- the loop takes the command
    have hcmd := command_restart { ts.st with dc := { ts.st.dc with buf := [0] } } i 0 []
      ht rfl (le_refl _) hi.dPos
    simp only [lt_irrefl, if_false] at hcmd
    have e3 := tstep_act { st := { ts.st with dc := { ts.st.dc with buf := [0] } },
                           now := ts.now + g, due := ts.due } (.loop .command) _ (by simp) hcmd
    simp only [List.length_append, timeTickerStop_length, List.length_singleton,
      lt_add_iff_pos_right, zero_lt_one, if_true, period_restart] at e3
    have hi2 : Inv { ts.st with dc := { ts.st.dc with buf := [0] } } :=
      Inv_step ts.st _ .resume hi hsend
    have hi3 := Inv_command _ _ hi2 hcmd
    have hrun3 : State.Running { ts.st with
        dc := { ts.st.dc with buf := [] },
        timers := timeTickerStop ts.st.timers i ++ [{ interval := ts.st.d, live := true }],
        t := some ts.st.timers.length } = true := by
      simp only [State.Running]
      exact tickerDelivers_append_new _ _ _
    obtain ⟨⟨ts2, r1, r2, r3, r4, r5⟩, hv⟩ := ih
      { st := { ts.st with
          dc := { ts.st.dc with buf := [] },
          timers := timeTickerStop ts.st.timers i ++ [{ interval := ts.st.d, live := true }],
          t := some ts.st.timers.length },
        now := ts.now + g, due := ts.now + g + ts.st.d }
      hi3 hrun3 rfl hd (by simp only [hd])
      (fun g1 hg1 => hgs g1 (List.mem_cons_of_mem _ hg1))
    constructor
    · refine ⟨ts2, ?_, r2, r3, r4, ?_⟩
      · simp only [resumeEvery]
        rw [trun_cons _ _ _ _ e1, trun_cons _ _ _ _ e2, trun_cons _ _ _ _ e3]
        exact r1
      · rw [r5]
        simp only [List.sum_cons]
        ring
    · intro u hu
      simp only [resumeEvery] at hu
      rw [tvisited_cons _ _ _ _ e1, tvisited_cons _ _ _ _ e2, tvisited_cons _ _ _ _ e3] at hu
      simp only [List.mem_cons] at hu
      rcases hu with rfl | rfl | rfl | hu
      · refine ⟨tstep_tick_blocked _ ?_, rfl⟩
        rw [hdue]
        intro h
        linarith
      · refine ⟨tstep_tick_blocked _ ?_, rfl⟩
        simp only [hdue]
        intro h
        linarith
      · refine ⟨tstep_tick_blocked _ ?_, rfl⟩
        simp only [hdue]
        intro h
        linarith
      · exact hv u hu

/-- A ticker of period `d` whose consumer reads every tick before the next one
is due: the whole schedule runs, the ticks read are the due times, one period
apart, none is dropped, and at the end the next tick is due one period after
the last one. -/
theorem keepUp_reads (d : Duration) (bs : List Duration) (carry : Duration) (ts : Timed)
    (hi : Inv ts.st) (hrun : ts.st.Running = true) (hout : ts.st.out = [])
    (hper : ts.st.period = d) (hdue : ts.due = ts.now + (d - carry))
    (hc : 0 ≤ carry ∧ carry < d) (hbs : ∀ b ∈ bs, 0 ≤ b ∧ b < d) :
    ∃ ts1, trun ts (keepUp d carry bs) = .done ts1 ∧
      consumed ts.st (untimed ts (keepUp d carry bs)) =
        (List.range bs.length).map (fun (k : Nat) => ts.due + (k : Int) * d) ∧
      ts1.due = ts.due + (bs.length : Int) * d ∧
      ts1.due = ts1.now + (d - bs.getLastD carry) ∧
      ts1.st.out = [] ∧ ts1.st.Running = true := by
  induction bs generalizing ts carry with
  | nil =>
    exact ⟨ts, rfl, rfl, by simp, by simpa using hdue, hout, hrun⟩
  | cons b bs ih =>
    obtain ⟨hb0, hbd⟩ := hbs b (List.mem_cons_self _ _)
    -- time passes until the tick is due
    have e1 : tstep ts (.wait (d - carry)) = .done { ts with now := ts.now + (d - carry) } :=
      tstep_wait ts (d - carry) (by linarith [hc.2]) (by rw [hdue])
    -- the tick
    obtain ⟨s1, h1⟩ := onTick_total ts.st ts.due hi
    have hfire : loopIter ts.st (.timerFired ts.due) = .done s1 := by
      rw [loopIter_timerFired_eq ts.st ts.due hrun]
      exact h1
    have hs1 : step ts.st (.loop (.timerFired ts.due)) = .done s1 := hfire
    have hout1 : s1.out = [ts.due] := by
      rcases onTick_out ts.st s1 ts.due hi h1 with ⟨_, h3⟩ | ⟨h3, _⟩
      · exact h3
      · exact absurd hout h3
    have hi1 : Inv s1 := Inv_step ts.st s1 _ hi hs1
    obtain ⟨ft, ftm, _, _, _⟩ := step_frame ts.st s1 _ (by simp) hs1
    have hrun1 : s1.Running = true := (Running_congr ts.st s1 ft ftm).trans hrun
    have hper1 : s1.period = d := (period_congr ts.st s1 ft ftm).trans hper
    have e2 : tstep { ts with now := ts.now + (d - carry) } .tick =
        .done { st := s1, now := ts.now + (d - carry), due := ts.due + d } := by
      rw [tstep_tick { ts with now := ts.now + (d - carry) } s1 hrun hdue.symm hfire]
      simp only [hper]
    -- time passes by `b`
    have e3 : tstep { st := s1, now := ts.now + (d - carry), due := ts.due + d } (.wait b) =
        .done { st := s1, now := ts.now + (d - carry) + b, due := ts.due + d } :=
      tstep_wait _ b hb0 (by simp only [hdue]; linarith)
    -- the read
    obtain ⟨s2, h2, hout2⟩ := readC_of_out s1 ts.due [] hi1 hout1
    have hs2 : step s1 .read = .done s2 := by
      simp only [step, h2, Outcome.state]
    have hi2 : Inv s2 := Inv_step s1 s2 _ hi1 hs2
    obtain ⟨gt, gtm, _, _, _⟩ := step_frame s1 s2 _ (by simp) hs2
    have hrun2 : s2.Running = true := (Running_congr s1 s2 gt gtm).trans hrun1
    have hper2 : s2.period = d := (period_congr s1 s2 gt gtm).trans hper1
    have e4 : tstep { st := s1, now := ts.now + (d - carry) + b, due := ts.due + d }
        (.act .read) =
        .done { st := s2, now := ts.now + (d - carry) + b, due := ts.due + d } := by
      rw [tstep_act _ .read s2 (by simp) hs2]
      simp [gtm]
    obtain ⟨ts1, r1, r2, r3, r4, r5, r6⟩ := ih b
      { st := s2, now := ts.now + (d - carry) + b, due := ts.due + d }
      hi2 hrun2 hout2 hper2 (by simp only [hdue]; ring) ⟨hb0, hbd⟩
      (fun b1 hb1 => hbs b1 (List.mem_cons_of_mem _ hb1))
    refine ⟨ts1, ?_, ?_, ?_, ?_, r5, r6⟩
    · simp only [keepUp]
      rw [trun_cons _ _ _ _ e1, trun_cons _ _ _ _ e2, trun_cons _ _ _ _ e3,
        trun_cons _ _ _ _ e4]
      exact r1
    · simp only [keepUp]
      rw [untimed_wait _ _ _ _ e1, untimed_tick _ _ _ e2, untimed_wait _ _ _ _ e3,
        untimed_act _ _ _ _ e4]
      rw [consumed_other ts.st s1 _ _ (by simp) hs1, consumed_read s1 s2 ts.due _ h2, r2]
      simp only [List.length_cons, List.range_succ_eq_map, List.map_cons, List.map_map]
      refine congrArg₂ _ (by simp) ?_
      apply List.map_congr_left
      intro k _
      simp only [Function.comp]
      push_cast
      ring
    · rw [r3]
      simp only [List.length_cons]
      push_cast
      ring
    · rw [r4]
      have hl : (b :: bs).getLastD carry = bs.getLastD b := by
        cases bs with
        | nil => rfl
        | cons b2 bs2 => simp [List.getLastD]
      rw [hl]

/-! ## Claims -/

/-- C1: for every state and every duration `d ≤ 0`, `Adjust(d)` returns
`ErrDuration` and the state after the call is the state before it: nothing was
sent on the command channel, the interval `d` of the loop, the heap of tickers
(hence Running/Stopped) and the output channel are what they were. -/
theorem Adjust_nonpos_unchanged (s : State) (d : Duration) (h : d ≤ 0) :
    Adjust s d = .done (some Error.ErrDuration, s) ∧
    ∀ r s1, Adjust s d = .done (r, s1) →
      r = some Error.ErrDuration ∧ s1.dc = s.dc ∧ s1.d = s.d ∧ s1.t = s.t ∧
      s1.timers = s.timers ∧ s1.Running = s.Running ∧ s1.out = s.out := by
  have h1 : Adjust s d = .done (some Error.ErrDuration, s) := by
    simp [Adjust, h]
  refine ⟨h1, ?_⟩
  intro r s1 h2
  rw [h1] at h2
  injection h2 with h2
  injection h2 with hr hs
  subst hr
  subst hs
  simp

theorem Adjust_nonpos_unchanged_witness :
    (-1 : Duration) ≤ 0 ∧
    Adjust sampleRunning (-1) = .done (some Error.ErrDuration, sampleRunning) :=
  ⟨by decide, (Adjust_nonpos_unchanged sampleRunning (-1) (by decide)).1⟩

/-- C2: for every `d > 0` and every state whose command channel is free (and
whose handle `t.t` is not nil, so that the loop can enter its `select`),
`Adjust(d)` returns nil and leaves exactly `d` in the command channel.  After
any timer fires and consumer reads that happen in between, the loop takes that
command, and when it has, the ticker `t.t` pointed to has been stopped, the
interval of the loop is `d`, `t.t` points to a newly allocated live ticker of
interval `d` (the state is Running) and the command channel is free again; the
iteration itself does not touch the output channel. -/
theorem Adjust_pos_then_command (s : State) (d : Duration) (i : Nat) (hd : 0 < d)
    (hcap : s.dc.cap = 1) (hfree : s.dc.buf = []) (hopen : s.dc.closed = false)
    (ht : s.t = some i) :
    ∃ s1,
      Adjust s d = .done (none, s1) ∧
      s1 = { s with dc := { s.dc with buf := [d] } } ∧
      ∀ es u, (∀ e ∈ es, e = .read ∨ ∃ tm, e = .loop (.timerFired tm)) →
        run s1 es = .done u →
        ∃ s2, loopIter u .command = .done s2 ∧
          s2.d = d ∧
          s2.timers = timeTickerStop s.timers i ++ [{ interval := d, live := true }] ∧
          (∀ tk, s.timers[i]? = some tk → s2.timers[i]? = some { tk with live := false }) ∧
          s2.t = some s.timers.length ∧
          s2.timers[s.timers.length]? = some { interval := d, live := true } ∧
          s2.Running = true ∧
          s2.dc = s.dc ∧ s2.chans = u.chans ∧ s2.c = s.c ∧ s2.C = s.C := by
  have hnd : ¬ d ≤ 0 := not_le.mpr hd
  refine ⟨{ s with dc := { s.dc with buf := [d] } }, ?_, rfl, ?_⟩
  · simp [Adjust, hnd, Chan.send, hopen, hfree, hcap]
  intro es u hes hrun
  obtain ⟨ft, ftm, _, fdc, fc, fC⟩ := run_ticks_reads_frame _ u es hes hrun
  have htu : u.t = some i := ft.trans ht
  have hbu : u.dc.buf = [d] := by rw [fdc]
  have hstep : loopIter u .command = .done { u with
      dc := { u.dc with buf := [] },
      timers := timeTickerStop u.timers i ++ [{ interval := d, live := true }],
      t := some u.timers.length, d := d } := by
    rw [loopIter_command u i d [] htu hbu]
    exact onCommand_pos _ i d htu hd
  have htm : u.timers = s.timers := ftm
  refine ⟨_, hstep, rfl, by rw [htm], ?_, by rw [htm], ?_, ?_, ?_, rfl, fc, fC⟩
  · intro tk htk
    have hi : i < (timeTickerStop s.timers i).length := by
      rw [timeTickerStop_length]
      rcases List.getElem?_eq_some_iff.mp htk with ⟨hi, _⟩
      exact hi
    have := timeTickerStop_getElem? s.timers i tk htk
    simp only [htm, List.getElem?_append_left hi, this]
  · simp only [htm]
    exact getElem?_append_new _ _ _
  · simp only [State.Running, htm]
    exact tickerDelivers_append_new _ _ _
  · simp only [fdc]
    cases hdc : s.dc with
    | mk cap buf closed =>
      simp only [hdc] at hfree
      simp [hfree]

theorem Adjust_pos_then_command_witness :
    (0 : Duration) < 5000000 ∧
    Adjust sampleRunning 5000000 = .done (none, sampleAdjustSent) ∧
    run sampleAdjustSent [.loop (.timerFired 7), .read] = .done sampleAdjustSent ∧
    ∃ s2, loopIter sampleAdjustSent .command = .done s2 ∧
      s2.d = 5000000 ∧
      s2.timers = [{ interval := 1000000, live := false },
                   { interval := 5000000, live := true }] ∧
      s2.t = some 1 ∧ s2.Running = true ∧ s2.dc.buf = [] := by
  obtain ⟨s1, h1, h2, h3⟩ :=
    Adjust_pos_then_command sampleRunning 5000000 0 (by decide) rfl rfl rfl rfl
  subst h2
  have hes : ∀ e ∈ [Event.loop (.timerFired 7), Event.read],
      e = .read ∨ ∃ tm, e = .loop (.timerFired tm) := by
    intro e he
    rcases List.mem_cons.mp he with rfl | he
    · exact Or.inr ⟨7, rfl⟩
    · rcases List.mem_cons.mp he with rfl | he
      · exact Or.inl rfl
      · cases he
  obtain ⟨s2, a, b, c, _, e, _, g, h, _⟩ := h3 _ sampleAdjustSent hes rfl
  exact ⟨by decide, h1, rfl, s2, a, b, c, e, g, by rw [h]; rfl⟩

/-- C3: from every state in which the loop can take the command case and the
value it receives is negative (a Stop), the iteration completes and leaves
the ticker Stopped: the ticker `t.t` points to has been stopped, the handle is
kept and no ticker has been created.  In every execution that continues from
there without the loop taking another command, the ticker stays Stopped, no
tick is delivered to the loop, the timer case of the `select` is never
enabled, and nothing is added to the output channel. -/
theorem Stop_command_silences (s : State) (i : Nat) (nextd : Duration)
    (rest : List Duration) (ht : s.t = some i) (hbuf : s.dc.buf = nextd :: rest)
    (hneg : nextd < 0) :
    ∃ s1, loopIter s .command = .done s1 ∧
      s1.Stopped = true ∧ s1.t = s.t ∧ s1.timers = timeTickerStop s.timers i ∧
      s1.timers.length = s.timers.length ∧ s1.d = s.d ∧ s1.out = s.out ∧
      ∀ es u, Event.loop .command ∉ es → run s1 es = .done u →
        u.Stopped = true ∧ u.timers = s1.timers ∧ delivered es = [] ∧
        u.out <:+ s.out ∧ ∀ tm, loopIter u (.timerFired tm) = .blocked := by
  have hst : ({ s with dc := { s.dc with buf := rest },
                       timers := timeTickerStop s.timers i } : State).Stopped = true := by
    simp [State.Stopped, State.Running, ht, tickerDelivers_stop_self]
  refine ⟨{ s with dc := { s.dc with buf := rest }, timers := timeTickerStop s.timers i },
    ?_, hst, rfl, rfl, timeTickerStop_length _ _, rfl, rfl, ?_⟩
  · rw [loopIter_command s i nextd rest ht hbuf]
    exact onCommand_neg _ i nextd ht hneg
  · intro es u hnc hrun
    obtain ⟨a, b, _, d, e, f⟩ := run_stopped _ u es hst hnc hrun
    refine ⟨d, b, e, f, ?_⟩
    intro tm
    exact timerFired_stopped u tm i (a.trans ht) d

theorem Stop_command_silences_witness :
    (-1 : Duration) < 0 ∧
    loopIter sampleStopSent .command = .done sampleStopped ∧
    sampleStopped.Stopped = true ∧
    run sampleStopped [.stop, .adjust 0] = .done sampleStoppedStopSent ∧
    sampleStoppedStopSent.Stopped = true ∧
    delivered [.stop, .adjust 0] = [] ∧
    ∀ tm, loopIter sampleStoppedStopSent (.timerFired tm) = .blocked := by
  obtain ⟨s1, h1, h2, _, _, _, _, _, h3⟩ :=
    Stop_command_silences sampleStopSent 0 (-1) [] rfl rfl (by decide)
  have e : s1 = sampleStopped := by
    have h : loopIter sampleStopSent .command = .done sampleStopped := rfl
    rw [h] at h1
    injection h1 with h1
    exact h1.symm
  subst e
  obtain ⟨a, _, c, _, f⟩ := h3 [.stop, .adjust 0] sampleStoppedStopSent (by decide) rfl
  exact ⟨by decide, h1, h2, rfl, a, c, f⟩

/-- C4, as stated, fails: a tick published before `Stop` is called is still in
`C` after the loop has processed the Stop and is handed to the next read; and
as long as the loop has not taken the Stop command the ticker of a Running
state still delivers, so a tick published after the call is read as well. -/
theorem read_after_Stop_counterexample :
    Reachable 1000000 sampleTicked ∧
    Stop sampleTicked = .done sampleTickedStopSent ∧
    run sampleTickedStopSent [.loop .command, .read] =
      .done { sampleTickedStopped with chans := [Chan.make 1] } ∧
    consumed sampleTickedStopSent [.loop .command, .read] = [7] ∧
    Reachable 1000000 sampleRunning ∧
    Stop sampleRunning = .done sampleStopSent ∧
    run sampleStopSent [.loop (.timerFired 7), .read] = .done sampleStopSent ∧
    consumed sampleStopSent [.loop (.timerFired 7), .read] = [7] :=
  ⟨⟨sampleRunning, [.loop (.timerFired 7)], rfl, rfl⟩, rfl, rfl, rfl,
    ⟨sampleRunning, [], rfl, rfl⟩, rfl, rfl, rfl⟩

/-- C4, amended: in every reachable state in which a Stop command is waiting, the
loop takes it, and from then on, as long as neither `Resume` nor `Adjust` is
called, whatever the timers, the loop, further `Stop` calls and the consumer do,
the consumer receives from `C` only what was buffered in it when the Stop was
processed: at most one tick, and none if `C` was empty at that moment. -/
theorem reads_after_Stop_processed (d0 : Duration) (s : State) (nextd : Duration)
    (rest : List Duration) (hr : Reachable d0 s) (hbuf : s.dc.buf = nextd :: rest)
    (hneg : nextd < 0) :
    ∃ s1, loopIter s .command = .done s1 ∧
      ∀ es, (∀ e ∈ es, e ≠ .resume ∧ ∀ d, e ≠ .adjust d) →
        consumed s1 es <+: s.out ∧ (consumed s1 es).length ≤ 1 ∧
        (s.out = [] → consumed s1 es = []) := by
  have hi := Inv_reachable d0 s hr
  obtain ⟨i, ht, _⟩ := hi.handle
  have hrest : rest = [] := by
    have := hi.dcLen
    rw [hbuf] at this
    simp only [List.length_cons] at this
    exact List.length_eq_zero.mp (by omega)
  have hstep : loopIter s .command =
      .done { s with dc := { s.dc with buf := rest }, timers := timeTickerStop s.timers i } := by
    rw [loopIter_command s i nextd rest ht hbuf]
    exact onCommand_neg _ i nextd ht hneg
  refine ⟨_, hstep, ?_⟩
  have hq : Quiet { s with dc := { s.dc with buf := rest },
                           timers := timeTickerStop s.timers i } := by
    refine ⟨Inv_command s _ hi hstep, ?_, ?_⟩
    · simp [State.Stopped, State.Running, ht, tickerDelivers_stop_self]
    · simp [hrest]
  intro es hes
  have hp := consumed_quiet _ es hq hes
  have hp2 : consumed _ es <+: s.out := hp
  obtain ⟨_, _, hlen⟩ := Inv_chanAt s hi
  refine ⟨hp2, le_trans hp2.length_le hlen, ?_⟩
  intro he
  rw [he] at hp2
  exact List.prefix_nil.mp hp2

theorem reads_after_Stop_processed_witness :
    Reachable 1000000 sampleTickedStopSent ∧ (-1 : Duration) < 0 ∧
    loopIter sampleTickedStopSent .command = .done sampleTickedStopped ∧
    consumed sampleTickedStopped [.read, .stop, .loop .command, .read] = [7] ∧
    consumed sampleTickedStopped [.read, .stop, .loop .command, .read] <+:
      sampleTickedStopSent.out ∧
    (consumed sampleTickedStopped [.read, .stop, .loop .command, .read]).length ≤ 1 := by
  have hr : Reachable 1000000 sampleTickedStopSent :=
    ⟨sampleRunning, [.loop (.timerFired 7), .stop], rfl, rfl⟩
  obtain ⟨s1, h1, h2⟩ :=
    reads_after_Stop_processed 1000000 sampleTickedStopSent (-1) [] hr rfl (by decide)
  have e : s1 = sampleTickedStopped := by
    have h : loopIter sampleTickedStopSent .command = .done sampleTickedStopped := rfl
    rw [h] at h1
    injection h1 with h1
    exact h1.symm
  subst e
  have hes : ∀ e ∈ [Event.read, Event.stop, Event.loop .command, Event.read],
      e ≠ .resume ∧ ∀ d, e ≠ .adjust d := by
    intro e he
    simp only [List.mem_cons, List.mem_singleton, List.not_mem_nil, or_false] at he
    rcases he with rfl | rfl | rfl | rfl <;> simp
  obtain ⟨a, b, _⟩ := h2 _ hes
  exact ⟨hr, by decide, h1, rfl, a, b⟩

/-- C5: from every state with a positive interval `d` in which a Stop command is
waiting in the (capacity 1) command channel, the loop takes the Stop and is
Stopped with the stored interval still `d`; `Resume` then enqueues its zero, the
loop takes it, and the ticker is Running again: `t.t` points to a newly created
live ticker whose interval is that same `d`, the stored interval is `d` and the
output channel is untouched. -/
theorem Stop_then_Resume_restores (s : State) (i : Nat) (nextd : Duration)
    (ht : s.t = some i) (hd : 0 < s.d) (hcap : s.dc.cap = 1)
    (hopen : s.dc.closed = false) (hbuf : s.dc.buf = [nextd]) (hneg : nextd < 0) :
    ∃ s1 s2 s3,
      loopIter s .command = .done s1 ∧ s1.Stopped = true ∧ s1.d = s.d ∧
      Resume s1 = .done s2 ∧ s2.dc.buf = [0] ∧
      loopIter s2 .command = .done s3 ∧
      run s [.loop .command, .resume, .loop .command] = .done s3 ∧
      s3.Running = true ∧ s3.d = s.d ∧ s3.t = some s.timers.length ∧
      s3.timers = timeTickerStop s.timers i ++ [{ interval := s.d, live := true }] ∧
      s3.timers[s.timers.length]? = some { interval := s.d, live := true } ∧
      s3.out = s.out := by
  have e1 : loopIter s .command =
      .done { s with dc := { s.dc with buf := [] }, timers := timeTickerStop s.timers i } := by
    rw [loopIter_command s i nextd [] ht hbuf]
    exact onCommand_neg _ i nextd ht hneg
  have e2 : Resume { s with dc := { s.dc with buf := [] },
                            timers := timeTickerStop s.timers i } =
      .done { s with dc := { s.dc with buf := [0] }, timers := timeTickerStop s.timers i } := by
    simp [Resume, Chan.send, hopen, hcap]
  have e3 : loopIter { s with dc := { s.dc with buf := [0] },
                              timers := timeTickerStop s.timers i } .command =
      .done { s with
        dc := { s.dc with buf := [] },
        timers := timeTickerStop s.timers i ++ [{ interval := s.d, live := true }],
        t := some s.timers.length } := by
    have e3a := loopIter_command { s with
        dc := { s.dc with buf := [0] },
        timers := timeTickerStop s.timers i } i 0 [] ht rfl
    rw [e3a]
    have := onCommand_zero { s with dc := { s.dc with buf := [] },
                                    timers := timeTickerStop s.timers i } i ht hd
    simp only [timeTickerStop_idem, timeTickerStop_length] at this
    exact this
  refine ⟨_, _, _, e1, ?_, rfl, e2, rfl, e3, ?_, ?_, rfl, rfl, rfl, ?_, rfl⟩
  · simp [State.Stopped, State.Running, ht, tickerDelivers_stop_self]
  · simp only [run, step, e1, e2, e3]
  · simp only [State.Running]
    exact tickerDelivers_append_new _ _ _
  · exact getElem?_append_new _ _ _

theorem Stop_then_Resume_restores_witness :
    (0 : Duration) < sampleStopSent.d ∧ (-1 : Duration) < 0 ∧
    loopIter sampleStopSent .command = .done sampleStopped ∧
    Resume sampleStopped = .done { sampleStopped with
      dc := { cap := 1, buf := [0], closed := false } } ∧
    ∃ s3, run sampleStopSent [.loop .command, .resume, .loop .command] = .done s3 ∧
      s3.Running = true ∧ s3.d = 1000000 ∧ s3.t = some 1 ∧
      s3.timers = [{ interval := 1000000, live := false },
                   { interval := 1000000, live := true }] ∧
      s3.out = [] := by
  obtain ⟨s1, s2, s3, _, _, _, _, _, _, h7, h8, h9, h10, h11, _, h13⟩ :=
    Stop_then_Resume_restores sampleStopSent 0 (-1) rfl (by decide) rfl rfl rfl (by decide)
  exact ⟨by decide, by decide, rfl, rfl, s3, h7, h8, h9, h10, h11, h13⟩

/-- C6: in every state in which the ticker `t.t` points to delivers and the
output channel is an open channel of capacity 1, the timer case of the loop
completes (it neither blocks nor panics) for every timestamp `tm`: an empty
output channel afterwards holds exactly `tm`; an output channel holding `tm0`
still holds exactly `tm0`, and `tm` is gone; the interval, the handle, the heap
of tickers and the command channel are unchanged. -/
theorem timerFired_publishes_once (s : State) (tm : Time) (hrun : s.Running = true)
    (hcap : (s.chanAt s.c).cap = 1) (hopen : (s.chanAt s.c).closed = false) :
    ∃ s1, loopIter s (.timerFired tm) = .done s1 ∧
      (s.out = [] → s1.out = [tm]) ∧
      (∀ tm0, s.out = [tm0] → s1.out = [tm0] ∧ s1 = s) ∧
      s1.d = s.d ∧ s1.t = s.t ∧ s1.timers = s.timers ∧ s1.dc = s.dc ∧
      s1.c = s.c ∧ s1.C = s.C := by
  obtain ⟨k, hk, hlt⟩ : ∃ k, s.c = some k ∧ k < s.chans.length := by
    cases hc : s.c with
    | none => simp [State.chanAt, hc, Chan.nil] at hcap
    | some k =>
      refine ⟨k, rfl, ?_⟩
      by_contra hlt
      rw [hc, chanAt_dangling s k hlt] at hcap
      simp [Chan.nil] at hcap
  have hfire : loopIter s (.timerFired tm) = onTick s tm := by
    unfold State.Running at hrun
    unfold loopIter
    split
    · rename_i h0
      simp [h0] at hrun
    · rename_i i0 h0
      simp only [h0] at hrun
      simp [hrun]
  rw [hfire]
  by_cases hb : (s.chanAt s.c).buf.length < 1
  · have hs : (s.chanAt s.c).trySend tm =
        .done { s.chanAt s.c with buf := (s.chanAt s.c).buf ++ [tm] } := by
      simp [Chan.trySend, hopen, hcap, hb]
    refine ⟨s.setChan s.c { s.chanAt s.c with buf := (s.chanAt s.c).buf ++ [tm] },
      by simp [onTick, hs], ?_, ?_, by simp, by simp, by simp, by simp, by simp, by simp⟩
    · intro he
      simp only [State.out] at he
      simp only [State.out, setChan_c]
      rw [hk, chanAt_setChan_self s k _ hlt, ← hk, he]
      rfl
    · intro tm0 he
      simp only [State.out] at he
      rw [he] at hb
      simp at hb
  · have hs : (s.chanAt s.c).trySend tm = .done (s.chanAt s.c) := by
      simp [Chan.trySend, hopen, hcap, hb]
    have hset : s.setChan s.c (s.chanAt s.c) = s := by
      rw [hk]
      exact setChan_chanAt_self s k
    refine ⟨s, by simp [onTick, hs, hset], ?_, ?_, rfl, rfl, rfl, rfl, rfl, rfl⟩
    · intro he
      simp only [State.out] at he
      rw [he] at hb
      simp at hb
    · intro tm0 he
      exact ⟨he, rfl⟩

theorem timerFired_publishes_once_witness :
    sampleRunning.Running = true ∧ sampleRunning.out = [] ∧
    (∃ s1, loopIter sampleRunning (.timerFired 7) = .done s1 ∧ s1.out = [7]) ∧
    sampleTicked.Running = true ∧ sampleTicked.out = [7] ∧
    (∃ s1, loopIter sampleTicked (.timerFired 8) = .done s1 ∧ s1.out = [7] ∧
      s1 = sampleTicked) := by
  obtain ⟨s1, h1, h2, _⟩ := timerFired_publishes_once sampleRunning 7 rfl rfl rfl
  obtain ⟨s2, g1, _, g3, _⟩ := timerFired_publishes_once sampleTicked 8 rfl rfl rfl
  exact ⟨rfl, rfl, ⟨s1, h1, h2 rfl⟩, rfl, rfl, ⟨s2, g1, (g3 7 rfl).1, (g3 7 rfl).2⟩⟩

/-- C7: in every state reachable from `NewTicker` through any interleaving of
loop iterations, `Stop` / `Resume` / `Adjust` calls and consumer reads, the
output channel has capacity 1 and holds at most one tick, and the consumer
reads that same channel.  If the channel is empty and the ticker Running, then
after any `n ≥ 1` timer fires `tm, tms` in a row with no read in between the
execution completes and the channel holds exactly one tick, the first one,
which the next read from `C` returns, leaving the channel empty. -/
theorem output_holds_at_most_one (d0 : Duration) (s : State) (hr : Reachable d0 s) :
    (s.chanAt s.c).cap = 1 ∧ s.out.length ≤ 1 ∧ (s.chanAt s.C).buf = s.out ∧
    (s.out = [] → s.Running = true → ∀ tm tms,
      ∃ u, run s ((tm :: tms).map (fun x => Event.loop (.timerFired x))) = .done u ∧
        u.out = [tm] ∧ u.out.length = 1 ∧
        ∃ u1, readC u = .done (tm, u1) ∧ u1.out = []) := by
  have hi := Inv_reachable d0 s hr
  obtain ⟨a, _, c⟩ := Inv_chanAt s hi
  refine ⟨a, c, by rw [hi.sameChan]; rfl, ?_⟩
  intro he hrun tm tms
  obtain ⟨s1, h1⟩ := onTick_total s tm hi
  have hs1 : step s (.loop (.timerFired tm)) = .done s1 := by
    simp only [step, loopIter_timerFired_eq s tm hrun, h1]
  have hout : s1.out = [tm] := by
    rcases onTick_out s s1 tm hi h1 with ⟨_, h3⟩ | ⟨h3, _⟩
    · exact h3
    · exact absurd he h3
  obtain ⟨ft, ftm, _, _, _⟩ := step_frame s s1 _ (by simp) hs1
  have hrun1 : s1.Running = true := by
    simp only [State.Running, ft, ftm]
    exact hrun
  have hi1 : Inv s1 := Inv_step s s1 _ hi hs1
  refine ⟨s1, ?_, hout, by simp [hout], readC_of_out s1 tm [] hi1 hout⟩
  simp only [List.map_cons, run, hs1]
  exact run_fires_full s1 tms tm hi1 hrun1 hout

theorem output_holds_at_most_one_witness :
    Reachable 1000000 sampleRunning ∧
    (sampleRunning.chanAt sampleRunning.c).cap = 1 ∧ sampleRunning.out.length ≤ 1 ∧
    ∃ u, run sampleRunning [.loop (.timerFired 7), .loop (.timerFired 8),
        .loop (.timerFired 9)] = .done u ∧
      u.out = [7] ∧ u.out.length = 1 ∧ ∃ u1, readC u = .done (7, u1) ∧ u1.out = [] := by
  have hr : Reachable 1000000 sampleRunning := ⟨sampleRunning, [], rfl, rfl⟩
  obtain ⟨a, b, _, h⟩ := output_holds_at_most_one 1000000 sampleRunning hr
  exact ⟨hr, a, b, h rfl rfl 7 [8, 9]⟩

/-- C8: in every execution that starts with `NewTicker`, the sequence of
timestamps the consumer receives from `C` is a subsequence, in the same order,
of the sequence of timestamps the tickers delivered to the loop. -/
theorem reads_subsequence_of_deliveries (d0 : Duration) (s0 u : State) (es : List Event)
    (h0 : NewTicker d0 = .done s0) (hr : run s0 es = .done u) :
    (consumed s0 es).Sublist (delivered es) := by
  have hs := consumed_sublist s0 u es (Inv_init d0 s0 h0) hr
  obtain ⟨_, rfl⟩ := NewTicker_done d0 s0 h0
  exact (List.sublist_append_left _ _).trans hs

theorem reads_subsequence_of_deliveries_witness :
    NewTicker 1000000 = .done sampleRunning ∧
    run sampleRunning [.loop (.timerFired 7), .loop (.timerFired 8), .read,
      .loop (.timerFired 9), .read] = .done sampleRunning ∧
    consumed sampleRunning [.loop (.timerFired 7), .loop (.timerFired 8), .read,
      .loop (.timerFired 9), .read] = [7, 9] ∧
    (consumed sampleRunning [.loop (.timerFired 7), .loop (.timerFired 8), .read,
      .loop (.timerFired 9), .read]).Sublist
      (delivered [.loop (.timerFired 7), .loop (.timerFired 8), .read,
        .loop (.timerFired 9), .read]) :=
  ⟨rfl, rfl, rfl, reads_subsequence_of_deliveries 1000000 sampleRunning sampleRunning
    [.loop (.timerFired 7), .loop (.timerFired 8), .read, .loop (.timerFired 9), .read]
    rfl rfl⟩

/-- C9: `NewTicker(d)` panics exactly when `d ≤ 0`.  For `d > 0` it returns a
state in which `C` and `c` are the same reference, to an open, empty channel of
capacity 1; the command channel is open, empty and of capacity 1; the loop
starts with interval `d`; and `t.t` points to the only ticker on the heap, live
and of interval `d`, so the state is Running. -/
theorem NewTicker_contract (d : Duration) :
    (NewTicker d = .panic ↔ d ≤ 0) ∧
    (0 < d → ∃ s, NewTicker d = .done s ∧
      s.C = s.c ∧ s.c ≠ none ∧
      (s.chanAt s.c).cap = 1 ∧ (s.chanAt s.c).buf = [] ∧ (s.chanAt s.c).closed = false ∧
      s.dc.cap = 1 ∧ s.dc.buf = [] ∧ s.dc.closed = false ∧
      s.d = d ∧ s.Running = true ∧
      ∃ i, s.t = some i ∧ s.timers[i]? = some { interval := d, live := true } ∧
        s.timers.length = 1) := by
  constructor
  · constructor
    · intro h
      by_contra hd
      rw [NewTicker_pos d (not_le.mp hd)] at h
      cases h
    · intro hd
      simp [NewTicker, hd]
  · intro hd
    refine ⟨_, NewTicker_pos d hd, rfl, by simp, rfl, rfl, rfl, rfl, rfl, rfl, rfl, ?_,
      0, rfl, rfl, rfl⟩
    simp [State.Running, tickerDelivers]

theorem NewTicker_contract_witness :
    NewTicker 0 = .panic ∧ NewTicker (-1) = .panic ∧
    (0 : Duration) < 1000000 ∧ NewTicker 1000000 ≠ .panic ∧
    ∃ s, NewTicker 1000000 = .done s ∧
      s.C = s.c ∧ s.c ≠ none ∧
      (s.chanAt s.c).cap = 1 ∧ (s.chanAt s.c).buf = [] ∧ (s.chanAt s.c).closed = false ∧
      s.dc.cap = 1 ∧ s.dc.buf = [] ∧ s.dc.closed = false ∧
      s.d = 1000000 ∧ s.Running = true ∧
      ∃ i, s.t = some i ∧ s.timers[i]? = some { interval := 1000000, live := true } ∧
        s.timers.length = 1 :=
  ⟨(NewTicker_contract 0).1.mpr (by decide), (NewTicker_contract (-1)).1.mpr (by decide),
    by decide, fun h => absurd ((NewTicker_contract 1000000).1.mp h) (by decide),
    (NewTicker_contract 1000000).2 (by decide)⟩

/-- C10: `NewTicker(d0)` completes only for `d0 > 0`, and in every state reachable
from it the interval of the loop is positive and every ticker on the heap was
created with a positive interval.  Hence whenever the loop takes a command that
is not a Stop (a value `≥ 0`), the guard `d > 0` holds: the iteration allocates
one new ticker, with the positive interval of the loop, and is Running. -/
theorem interval_always_positive (d0 : Duration) (s : State) (hr : Reachable d0 s) :
    0 < d0 ∧ 0 < s.d ∧ (∀ tk ∈ s.timers, 0 < tk.interval) ∧
    ∀ nextd rest, s.dc.buf = nextd :: rest → 0 ≤ nextd →
      ∃ s1, loopIter s .command = .done s1 ∧ 0 < s1.d ∧
        s1.d = (if 0 < nextd then nextd else s.d) ∧
        s1.timers.length = s.timers.length + 1 ∧
        s1.timers[s.timers.length]? = some { interval := s1.d, live := true } ∧
        s1.t = some s.timers.length ∧ s1.Running = true := by
  have hi := Inv_reachable d0 s hr
  have hd0 : 0 < d0 := by
    obtain ⟨s0, _, h0, _⟩ := hr
    exact (NewTicker_done d0 s0 h0).1
  refine ⟨hd0, hi.dPos, hi.intervals, ?_⟩
  intro nextd rest hbuf hn
  obtain ⟨i, ht, _⟩ := hi.handle
  rw [loopIter_command s i nextd rest ht hbuf]
  rcases lt_or_eq_of_le hn with hp | hz
  · refine ⟨_, onCommand_pos _ i nextd ht hp, hp, by simp [hp], by simp [timeTickerStop_length],
      getElem?_append_new _ _ _, rfl, ?_⟩
    simp only [State.Running]
    exact tickerDelivers_append_new _ _ _
  · subst hz
    refine ⟨_, onCommand_zero _ i ht hi.dPos, hi.dPos, by simp, by simp [timeTickerStop_length],
      getElem?_append_new _ _ _, rfl, ?_⟩
    simp only [State.Running]
    exact tickerDelivers_append_new _ _ _

theorem interval_always_positive_witness :
    Reachable 1000000 sampleResumeSent ∧
    (0 : Duration) < 1000000 ∧ 0 < sampleResumeSent.d ∧
    (∀ tk ∈ sampleResumeSent.timers, 0 < tk.interval) ∧
    sampleResumeSent.dc.buf = [0] ∧
    ∃ s1, loopIter sampleResumeSent .command = .done s1 ∧ 0 < s1.d ∧
      s1.d = 1000000 ∧ s1.timers.length = 2 ∧
      s1.timers[1]? = some { interval := s1.d, live := true } ∧
      s1.t = some 1 ∧ s1.Running = true := by
  have hr : Reachable 1000000 sampleResumeSent := ⟨sampleRunning, [.resume], rfl, rfl⟩
  obtain ⟨a, b, c, h⟩ := interval_always_positive 1000000 sampleResumeSent hr
  obtain ⟨s1, h1, h2, h3, h4, h5, h6, h7⟩ := h 0 [] rfl (by decide)
  exact ⟨hr, a, b, c, rfl, s1, h1, h2, h3, h4, h5, h6, h7⟩

/-- C11: in every reachable Running state, with interval `d`, in which a Resume
command (zero) is waiting, the loop takes it and afterwards: the ticker is
Running, the interval is still `d`, the ticker that was live has been stopped,
`t.t` points to a new live ticker of interval `d`, exactly one ticker on the
heap is live (as before the command), and the heap of channels, hence the
content of the output channel, is unchanged. -/
theorem Resume_while_Running (d0 : Duration) (s : State) (rest : List Duration)
    (hr : Reachable d0 s) (hrun : s.Running = true) (hbuf : s.dc.buf = 0 :: rest) :
    ∃ i s1, s.t = some i ∧ tickerDelivers s.timers i = true ∧ s.liveCount = 1 ∧
      loopIter s .command = .done s1 ∧
      s1.Running = true ∧ s1.d = s.d ∧
      tickerDelivers s1.timers i = false ∧
      s1.t = some s.timers.length ∧
      s1.timers[s.timers.length]? = some { interval := s.d, live := true } ∧
      s1.liveCount = 1 ∧
      s1.chans = s.chans ∧ s1.c = s.c ∧ s1.C = s.C ∧ s1.out = s.out := by
  have hi := Inv_reachable d0 s hr
  obtain ⟨i, ht, hlen⟩ := hi.handle
  have hdel : tickerDelivers s.timers i = true := by
    simpa [State.Running, ht] using hrun
  have hone : s.liveCount = 1 := by
    have h1 := liveCount_le_one s hi
    have h2 : 0 < s.liveCount := by
      unfold State.liveCount
      apply List.length_pos.mpr
      intro hnil
      rw [List.filter_eq_nil_iff] at hnil
      unfold tickerDelivers at hdel
      cases h0 : s.timers[i]? with
      | none => simp [h0] at hdel
      | some tk =>
        simp only [h0] at hdel
        exact hnil tk (List.getElem?_mem h0) hdel
    omega
  have hstep : loopIter s .command = .done { s with
      dc := { s.dc with buf := rest },
      timers := timeTickerStop s.timers i ++ [{ interval := s.d, live := true }],
      t := some s.timers.length } := by
    rw [loopIter_command s i 0 rest ht hbuf]
    exact onCommand_zero _ i ht hi.dPos
  refine ⟨i, _, ht, hdel, hone, hstep, ?_, rfl, ?_, rfl, getElem?_append_new _ _ _, ?_,
    rfl, rfl, rfl, rfl⟩
  · simp only [State.Running]
    exact tickerDelivers_append_new _ _ _
  · have hlt : i < (timeTickerStop s.timers i).length := by
      rw [timeTickerStop_length]
      omega
    have h1 := tickerDelivers_stop_self s.timers i
    unfold tickerDelivers at h1 ⊢
    simp only [List.getElem?_append_left hlt]
    exact h1
  · exact liveCount_restart s i s.d hi ht

theorem Resume_while_Running_witness :
    Reachable 1000000 sampleResumeSent ∧ sampleResumeSent.Running = true ∧
    sampleResumeSent.dc.buf = [0] ∧
    ∃ s1, loopIter sampleResumeSent .command = .done s1 ∧
      s1.Running = true ∧ s1.d = 1000000 ∧
      tickerDelivers s1.timers 0 = false ∧ s1.t = some 1 ∧
      s1.timers[1]? = some { interval := 1000000, live := true } ∧
      s1.liveCount = 1 ∧ s1.out = sampleResumeSent.out := by
  have hr : Reachable 1000000 sampleResumeSent := ⟨sampleRunning, [.resume], rfl, rfl⟩
  obtain ⟨i, s1, h0, _, _, h1, h2, h3, h4, h5, h6, h7, _, _, _, h8⟩ :=
    Resume_while_Running 1000000 sampleResumeSent [] hr rfl rfl
  have hi0 : i = 0 := by
    have h : sampleResumeSent.t = some 0 := rfl
    rw [h] at h0
    injection h0 with h0
    exact h0.symm
  subst hi0
  exact ⟨hr, rfl, rfl, s1, h1, h2, h3, h4, h5, h6, h7, h8⟩

/-- C12: in every state whose handle `t.t` is not nil and whose command channel
is open with capacity 1: if the ticker is Stopped and a Stop command (a negative
value) is waiting, the loop takes it without blocking or panicking and the only
change is that the command left the channel, so the ticker is still Stopped
with the same interval, the same heap of tickers and the same output channel;
and from any such state, Running or Stopped, with one Stop waiting, taking that
Stop, calling `Stop` again and taking that one too ends in the very state
reached after the first. -/
theorem Stop_idempotent (s : State) (i : Nat) (ht : s.t = some i) (hcap : s.dc.cap = 1)
    (hopen : s.dc.closed = false) :
    (∀ nextd rest, s.Stopped = true → s.dc.buf = nextd :: rest → nextd < 0 →
      ∃ s1, loopIter s .command = .done s1 ∧ s1 = { s with dc := { s.dc with buf := rest } } ∧
        s1.Stopped = true ∧ s1.d = s.d ∧ s1.timers = s.timers ∧ s1.t = s.t ∧
        s1.out = s.out) ∧
    (∀ nextd, s.dc.buf = [nextd] → nextd < 0 →
      ∃ s1, loopIter s .command = .done s1 ∧ s1.Stopped = true ∧
        run s1 [.stop, .loop .command] = .done s1 ∧
        run s [.loop .command, .stop, .loop .command] = run s [.loop .command]) := by
  constructor
  · intro nextd rest hst hbuf hneg
    have hnd : tickerDelivers s.timers i = false := by
      simpa [State.Stopped, State.Running, ht] using hst
    have hstep : loopIter s .command = .done { s with dc := { s.dc with buf := rest } } := by
      rw [loopIter_command s i nextd rest ht hbuf]
      have := onCommand_neg { s with dc := { s.dc with buf := rest } } i nextd ht hneg
      simp only [timeTickerStop_of_not_delivers s.timers i hnd] at this
      exact this
    exact ⟨_, hstep, rfl, hst, rfl, rfl, rfl, rfl⟩
  · intro nextd hbuf hneg
    have e1 : loopIter s .command =
        .done { s with dc := { s.dc with buf := [] }, timers := timeTickerStop s.timers i } := by
      rw [loopIter_command s i nextd [] ht hbuf]
      exact onCommand_neg _ i nextd ht hneg
    have e2 : Stop { s with dc := { s.dc with buf := [] },
                            timers := timeTickerStop s.timers i } =
        .done { s with dc := { s.dc with buf := [-1] }, timers := timeTickerStop s.timers i } := by
      simp [Stop, Chan.send, hopen, hcap]
    have e3 : loopIter { s with dc := { s.dc with buf := [-1] },
                                timers := timeTickerStop s.timers i } .command =
        .done { s with dc := { s.dc with buf := [] }, timers := timeTickerStop s.timers i } := by
      have e3a := loopIter_command { s with
          dc := { s.dc with buf := [-1] },
          timers := timeTickerStop s.timers i } i (-1) [] ht rfl
      rw [e3a]
      have := onCommand_neg { s with dc := { s.dc with buf := [] },
                                     timers := timeTickerStop s.timers i } i (-1) ht (by decide)
      simp only [timeTickerStop_idem] at this
      exact this
    refine ⟨_, e1, ?_, ?_, ?_⟩
    · simp [State.Stopped, State.Running, ht, tickerDelivers_stop_self]
    · simp only [run, step, e2, e3]
    · simp only [run, step, e1, e2, e3]

theorem Stop_idempotent_witness :
    sampleStoppedStopSent.Stopped = true ∧ (-1 : Duration) < 0 ∧
    loopIter sampleStoppedStopSent .command = .done sampleStopped ∧
    sampleStopped.Stopped = true ∧ sampleStopped.d = sampleStoppedStopSent.d ∧
    sampleStopped.out = sampleStoppedStopSent.out ∧
    run sampleStopSent [.loop .command, .stop, .loop .command] = .done sampleStopped ∧
    run sampleStopSent [.loop .command] = .done sampleStopped := by
  obtain ⟨s1, h1, h2, h3, h4, _, _, h5⟩ :=
    (Stop_idempotent sampleStoppedStopSent 0 rfl rfl rfl).1 (-1) [] rfl rfl (by decide)
  have e : s1 = sampleStopped := h2
  subst e
  obtain ⟨s2, _, _, _, g⟩ :=
    (Stop_idempotent sampleStopSent 0 rfl rfl rfl).2 (-1) rfl (by decide)
  exact ⟨rfl, by decide, h1, h3, h4, h5, g.trans rfl, rfl⟩

/-- C13: in every state reachable from `NewTicker`, at most one ticker on the heap
is live, and a live ticker is the one `t.t` points to, the one the loop selects
on.  Whenever the loop takes a command, whatever its sign, the heap afterwards
is the old heap with the ticker `t.t` pointed to stopped, followed by at most
one new ticker, which `t.t` then points to: no ticker that existed before the
command delivers any more, and at most one ticker is live. -/
theorem no_timer_leak (d0 : Duration) (s : State) (hr : Reachable d0 s) :
    s.liveCount ≤ 1 ∧
    (∀ j tk, s.timers[j]? = some tk → tk.live = true → s.t = some j) ∧
    (∀ s1, loopIter s .command = .done s1 →
      ∃ i extra, s.t = some i ∧ s1.timers = timeTickerStop s.timers i ++ extra ∧
        extra.length ≤ 1 ∧ (extra ≠ [] → s1.t = some s.timers.length) ∧
        (extra = [] → s1.t = s.t) ∧
        (∀ j, j < s.timers.length → tickerDelivers s1.timers j = false) ∧
        s1.liveCount = extra.length) := by
  have hi := Inv_reachable d0 s hr
  refine ⟨liveCount_le_one s hi, hi.oneLive, ?_⟩
  intro s1 hs
  obtain ⟨i, nextd, dc, ht, _, hcase⟩ := command_done s s1 hs
  have hold : ∀ (extra : List GoTicker) (j : Nat), j < s.timers.length →
      tickerDelivers (timeTickerStop s.timers i ++ extra) j = false := by
    intro extra j hj
    rw [tickerDelivers_append_old _ _ _ (by rw [timeTickerStop_length]; exact hj)]
    exact tickerDelivers_stop_all s i j hi ht
  rcases hcase with ⟨_, rfl⟩ | ⟨_, rfl⟩ | ⟨_, _, rfl⟩ | ⟨_, _, rfl⟩
  · refine ⟨i, [], ht, by simp, by simp, by simp, fun _ => rfl, ?_, ?_⟩
    · intro j hj
      have := hold [] j hj
      simpa using this
    · simp [State.liveCount, filter_live_stop s i hi ht]
  · refine ⟨i, [{ interval := nextd, live := true }], ht, rfl, by simp, fun _ => rfl,
      by simp, hold _, ?_⟩
    exact liveCount_restart s i nextd hi ht
  · refine ⟨i, [{ interval := s.d, live := true }], ht, rfl, by simp, fun _ => rfl,
      by simp, hold _, ?_⟩
    exact liveCount_restart s i s.d hi ht
  · refine ⟨i, [], ht, by simp, by simp, by simp, fun _ => rfl, ?_, ?_⟩
    · intro j hj
      have := hold [] j hj
      simpa using this
    · simp [State.liveCount, filter_live_stop s i hi ht]

theorem no_timer_leak_witness :
    Reachable 1000000 sampleAdjustSent ∧ sampleAdjustSent.liveCount ≤ 1 ∧
    ∃ s1, loopIter sampleAdjustSent .command = .done s1 ∧
      s1.timers = [{ interval := 1000000, live := false },
                   { interval := 5000000, live := true }] ∧
      tickerDelivers s1.timers 0 = false ∧ s1.liveCount = 1 := by
  have hr : Reachable 1000000 sampleAdjustSent :=
    ⟨sampleRunning, [.adjust 5000000], rfl, rfl⟩
  obtain ⟨a, _, h⟩ := no_timer_leak 1000000 sampleAdjustSent hr
  have hs : loopIter sampleAdjustSent .command = .done
      { sampleAdjustSent with
        dc := Chan.make 1,
        timers := [{ interval := 1000000, live := false },
                   { interval := 5000000, live := true }],
        t := some 1, d := 5000000 } := rfl
  obtain ⟨i, extra, _, _, _, _, _, h6, _⟩ := h _ hs
  exact ⟨hr, a, _, hs, rfl, h6 0 (by decide), rfl⟩

/-- C14: in every state whose command channel is free (open, capacity 1, empty),
`Stop`, `Resume` and `Adjust(d)` with `d > 0` each complete and leave exactly one
value in the command channel, `-1`, `0` and `d`, and change nothing else: the
interval, the handle `t.t`, the heap of tickers and the channels of timestamps
are as before.  The loop (handle not nil) then decodes by sign: on the negative
value it only stops the ticker and is Stopped; on zero it restarts with the
stored interval (when that is positive); on `d` it restarts with interval `d`. -/
theorem operations_only_enqueue (s : State) (d : Duration) (i : Nat) (hd : 0 < d)
    (hcap : s.dc.cap = 1) (hfree : s.dc.buf = []) (hopen : s.dc.closed = false)
    (ht : s.t = some i) :
    ∃ s1 s2 s3,
      Stop s = .done s1 ∧ Resume s = .done s2 ∧ Adjust s d = .done (none, s3) ∧
      s1 = { s with dc := { s.dc with buf := [-1] } } ∧
      s2 = { s with dc := { s.dc with buf := [0] } } ∧
      s3 = { s with dc := { s.dc with buf := [d] } } ∧
      (∃ r1, loopIter s1 .command = .done r1 ∧ r1.Stopped = true ∧ r1.d = s.d ∧
        r1.t = s.t ∧ r1.timers = timeTickerStop s.timers i) ∧
      (0 < s.d → ∃ r2, loopIter s2 .command = .done r2 ∧ r2.Running = true ∧ r2.d = s.d ∧
        r2.t = some s.timers.length ∧
        r2.timers = timeTickerStop s.timers i ++ [{ interval := s.d, live := true }]) ∧
      (∃ r3, loopIter s3 .command = .done r3 ∧ r3.Running = true ∧ r3.d = d ∧
        r3.t = some s.timers.length ∧
        r3.timers = timeTickerStop s.timers i ++ [{ interval := d, live := true }]) := by
  have hnd : ¬ d ≤ 0 := not_le.mpr hd
  refine ⟨_, _, _, ?_, ?_, ?_, rfl, rfl, rfl, ?_, ?_, ?_⟩
  · simp [Stop, Chan.send, hopen, hfree, hcap]
  · simp [Resume, Chan.send, hopen, hfree, hcap]
  · simp [Adjust, hnd, Chan.send, hopen, hfree, hcap]
  · refine ⟨{ s with dc := { s.dc with buf := [] }, timers := timeTickerStop s.timers i },
      ?_, ?_, rfl, rfl, rfl⟩
    · rw [loopIter_command { s with dc := { s.dc with buf := [-1] } } i (-1) [] ht rfl]
      exact onCommand_neg _ i (-1) ht (by decide)
    · simp [State.Stopped, State.Running, ht, tickerDelivers_stop_self]
  · intro hsd
    refine ⟨{ s with
        dc := { s.dc with buf := [] },
        timers := timeTickerStop s.timers i ++ [{ interval := s.d, live := true }],
        t := some s.timers.length }, ?_, ?_, rfl, rfl, rfl⟩
    · rw [loopIter_command { s with dc := { s.dc with buf := [0] } } i 0 [] ht rfl]
      exact onCommand_zero _ i ht hsd
    · simp only [State.Running]
      exact tickerDelivers_append_new _ _ _
  · refine ⟨{ s with
        dc := { s.dc with buf := [] },
        timers := timeTickerStop s.timers i ++ [{ interval := d, live := true }],
        t := some s.timers.length, d := d }, ?_, ?_, rfl, rfl, rfl⟩
    · rw [loopIter_command { s with dc := { s.dc with buf := [d] } } i d [] ht rfl]
      exact onCommand_pos _ i d ht hd
    · simp only [State.Running]
      exact tickerDelivers_append_new _ _ _

theorem operations_only_enqueue_witness :
    (0 : Duration) < 5000000 ∧ sampleRunning.dc.buf = [] ∧ (0 : Duration) < sampleRunning.d ∧
    Stop sampleRunning = .done sampleStopSent ∧
    Resume sampleRunning = .done sampleResumeSent ∧
    Adjust sampleRunning 5000000 = .done (none, sampleAdjustSent) ∧
    (∃ r1, loopIter sampleStopSent .command = .done r1 ∧ r1.Stopped = true ∧
      r1.d = 1000000) ∧
    (∃ r2, loopIter sampleResumeSent .command = .done r2 ∧ r2.Running = true ∧
      r2.d = 1000000) ∧
    (∃ r3, loopIter sampleAdjustSent .command = .done r3 ∧ r3.Running = true ∧
      r3.d = 5000000) := by
  obtain ⟨s1, s2, s3, h1, h2, h3, e1, e2, e3, ⟨r1, a1, a2, a3, _⟩, g, ⟨r3, c1, c2, c3, _⟩⟩ :=
    operations_only_enqueue sampleRunning 5000000 0 (by decide) rfl rfl rfl rfl
  subst e1
  subst e2
  subst e3
  obtain ⟨r2, b1, b2, b3, _⟩ := g (by decide)
  exact ⟨by decide, rfl, by decide, h1, h2, h3, ⟨r1, a1, a2, a3⟩, ⟨r2, b1, b2, b3⟩,
    ⟨r3, c1, c2, c3⟩⟩

/-- C16: in every state reachable from `NewTicker` the channel `C` is open, and
no action of any participant (a loop iteration, `Stop`, `Resume`, `Adjust`, a
read) changes whether a channel of timestamps or the command channel is open
or closed: nothing closes `C`.  So a read from `C` that completes returns the
oldest value the loop published, and on an empty `C`, for instance while the
ticker is Stopped, a read blocks instead of returning the zero value. -/
theorem output_never_closed (d0 : Duration) (s : State) (hr : Reachable d0 s) :
    (s.chanAt s.C).closed = false ∧ s.dc.closed = false ∧
    (∀ e s1, step s e = .done s1 →
      (∀ r, (s1.chanAt r).closed = (s.chanAt r).closed) ∧ s1.dc.closed = s.dc.closed ∧
      (s1.chanAt s1.C).closed = false) ∧
    (∀ tm s1, readC s = .done (tm, s1) → s.out = tm :: s1.out) ∧
    (s.out = [] → readC s = .blocked) := by
  have hi := Inv_reachable d0 s hr
  obtain ⟨_, hopen, _⟩ := Inv_chanAt s hi
  have hC : (s.chanAt s.C).closed = false := by rw [hi.sameChan]; exact hopen
  refine ⟨hC, hi.dcOpen, ?_, ?_, ?_⟩
  · intro e s1 hs
    obtain ⟨a, b⟩ := step_closed s s1 e hs
    have hi1 := Inv_step s s1 e hi hs
    obtain ⟨_, hopen1, _⟩ := Inv_chanAt s1 hi1
    exact ⟨a, b, by rw [hi1.sameChan]; exact hopen1⟩
  · intro tm s1 h
    exact readC_out s s1 tm hi h
  · intro he
    have hb : (s.chanAt s.C).buf = [] := by rw [hi.sameChan]; exact he
    simp [readC, Chan.recv, hb, hC]

theorem output_never_closed_witness :
    Reachable 1000000 sampleStopped ∧
    (sampleStopped.chanAt sampleStopped.C).closed = false ∧
    sampleStopped.out = [] ∧ readC sampleStopped = .blocked ∧
    step sampleStopped .stop = .done sampleStoppedStopSent ∧
    (sampleStoppedStopSent.chanAt sampleStoppedStopSent.C).closed = false := by
  have hr : Reachable 1000000 sampleStopped :=
    ⟨sampleRunning, [.stop, .loop .command], rfl, rfl⟩
  obtain ⟨a, _, c, _, e⟩ := output_never_closed 1000000 sampleStopped hr
  exact ⟨hr, a, rfl, e rfl, rfl, (c .stop sampleStoppedStopSent rfl).2.2⟩

/-- C18: in every state reachable from `NewTicker` the handle `t.t` is not nil and
points to a ticker on the heap, so no loop iteration panics on `tick.C` (indeed
no action of any participant panics) and the check `t.t != nil` of the command
case finds a ticker to stop; after a Stop command the handle is the one it was,
pointing to the stopped ticker, not nil. -/
theorem handle_never_nil (d0 : Duration) (s : State) (hr : Reachable d0 s) :
    (∃ i, s.t = some i ∧ i < s.timers.length) ∧
    (∀ ev, loopIter s ev ≠ .panic) ∧
    (∀ e, step s e ≠ .panic) ∧
    (∀ nextd rest, s.dc.buf = nextd :: rest → nextd < 0 →
      ∃ s1 i, loopIter s .command = .done s1 ∧ s1.t = s.t ∧ s1.t = some i ∧
        tickerDelivers s1.timers i = false ∧ i < s1.timers.length) := by
  have hi := Inv_reachable d0 s hr
  obtain ⟨i, ht, hlen⟩ := hi.handle
  refine ⟨⟨i, ht, by omega⟩, fun ev => step_not_panic s (.loop ev) hi,
    fun e => step_not_panic s e hi, ?_⟩
  intro nextd rest hbuf hneg
  refine ⟨{ s with dc := { s.dc with buf := rest }, timers := timeTickerStop s.timers i },
    i, ?_, rfl, ht, ?_, ?_⟩
  · rw [loopIter_command s i nextd rest ht hbuf]
    exact onCommand_neg _ i nextd ht hneg
  · exact tickerDelivers_stop_self _ _
  · simp only [timeTickerStop_length]
    omega

theorem handle_never_nil_witness :
    Reachable 1000000 sampleStopSent ∧
    (∃ i, sampleStopSent.t = some i ∧ i < sampleStopSent.timers.length) ∧
    loopIter sampleStopSent (.timerFired 7) ≠ .panic ∧
    sampleStopSent.dc.buf = [-1] ∧
    ∃ s1 i, loopIter sampleStopSent .command = .done s1 ∧ s1.t = sampleStopSent.t ∧
      s1.t = some i ∧ tickerDelivers s1.timers i = false ∧ i < s1.timers.length := by
  have hr : Reachable 1000000 sampleStopSent := ⟨sampleRunning, [.stop], rfl, rfl⟩
  obtain ⟨a, b, _, d⟩ := handle_never_nil 1000000 sampleStopSent hr
  exact ⟨hr, a, b (.timerFired 7), rfl, d (-1) [] rfl (by decide)⟩

/-- C20: in every state in which the loop can take the command case (handle not
nil, a value waiting in the command channel), for every value, negative, zero
or positive, the iteration completes and the heap of channels of timestamps and
the references `c` and `C` are what they were: the output channel holds what it
held.  In particular a tick that is in `C` before the command is still there
after it and is what the next read returns. -/
theorem command_keeps_output (s : State) (i : Nat) (nextd : Duration) (rest : List Duration)
    (ht : s.t = some i) (hbuf : s.dc.buf = nextd :: rest) :
    ∃ s1, loopIter s .command = .done s1 ∧
      s1.chans = s.chans ∧ s1.c = s.c ∧ s1.C = s.C ∧ s1.out = s.out ∧
      s1.chanAt s1.C = s.chanAt s.C ∧
      (∀ tm more, (s.chanAt s.C).buf = tm :: more → ∃ s2, readC s1 = .done (tm, s2)) := by
  obtain ⟨s1, h1, h2, h3, h4, _, _⟩ :=
    onCommand_total { s with dc := { s.dc with buf := rest } } i nextd ht
  have h2a : s1.chans = s.chans := h2
  have h3a : s1.c = s.c := h3
  have h4a : s1.C = s.C := h4
  have hC : s1.chanAt s1.C = s.chanAt s.C := by
    simp only [State.chanAt, h2a, h4a]
  refine ⟨s1, ?_, h2a, h3a, h4a, ?_, hC, ?_⟩
  · rw [loopIter_command s i nextd rest ht hbuf]
    exact h1
  · simp only [State.out, State.chanAt, h2a, h3a]
  · intro tm more hb
    refine ⟨s1.setChan s1.C { s.chanAt s.C with buf := more }, ?_⟩
    simp [readC, hC, Chan.recv, hb]

theorem command_keeps_output_witness :
    sampleTickedStopSent.dc.buf = [-1] ∧ sampleTickedStopSent.out = [7] ∧
    ∃ s1, loopIter sampleTickedStopSent .command = .done s1 ∧
      s1.chans = sampleTickedStopSent.chans ∧ s1.out = [7] ∧
      ∃ s2, readC s1 = .done (7, s2) := by
  obtain ⟨s1, h1, h2, _, _, h5, _, h7⟩ :=
    command_keeps_output sampleTickedStopSent 0 (-1) [] rfl rfl
  exact ⟨rfl, rfl, s1, h1, h2, h5, h7 7 [] rfl⟩

/-- C15: in logical time, let `NewTicker(d)` be called at time `t0`, let the
ticker tick exactly every `d`, and let the consumer read each tick before the
next one is due (the `k`-th one with a delay `b < d`).  Then the schedule is an
execution of the program, no tick is dropped, and the `k`-th tick read carries
the time `t0 + k * d`.  The `n`-th tick is read at time `t0 + n * d` plus the
delay of that read: when the consumer reads without delay, sampling `n` ticks
takes exactly `n * d`. -/
theorem cadence_when_consumer_keeps_up (t0 : Time) (d : Duration) (bs : List Duration)
    (ts0 : Timed) (h0 : tNewTicker t0 d = .done ts0) (hbs : ∀ b ∈ bs, 0 ≤ b ∧ b < d) :
    ∃ ts1, trun ts0 (keepUp d 0 bs) = .done ts1 ∧
      run ts0.st (untimed ts0 (keepUp d 0 bs)) = .done ts1.st ∧
      consumed ts0.st (untimed ts0 (keepUp d 0 bs)) =
        (List.range bs.length).map (fun (k : Nat) => t0 + ((k : Int) + 1) * d) ∧
      ts1.now = t0 + (bs.length : Int) * d + bs.getLastD 0 ∧
      ((∀ b ∈ bs, b = 0) → ts1.now - t0 = (bs.length : Int) * d) := by
  cases hn : NewTicker d with
  | blocked => simp [tNewTicker, hn] at h0
  | panic => simp [tNewTicker, hn] at h0
  | done s0 =>
    simp only [tNewTicker, hn] at h0
    injection h0 with h0
    subst h0
    obtain ⟨hd, hs0⟩ := NewTicker_done d s0 hn
    have hi := Inv_init d s0 hn
    have hrun : s0.Running = true := by
      rw [hs0]
      simp [State.Running, tickerDelivers]
    have hout : s0.out = [] := by
      rw [hs0]
      rfl
    have hper : s0.period = d := by
      rw [hs0]
      rfl
    obtain ⟨ts1, r1, r2, r3, r4, _, _⟩ := keepUp_reads d bs 0
      { st := s0, now := t0, due := t0 + d } hi hrun hout hper (by simp) ⟨le_refl _, hd⟩ hbs
    have hnow : ts1.now = t0 + (bs.length : Int) * d + bs.getLastD 0 := by
      have h5 : ts1.due = t0 + d + (bs.length : Int) * d := r3
      rw [r4] at h5
      linarith
    refine ⟨ts1, r1, trun_untimed _ ts1 _ r1, ?_, hnow, ?_⟩
    · rw [r2]
      apply List.map_congr_left
      intro k _
      simp only
      ring
    · intro hz
      have hl : bs.getLastD 0 = 0 := by
        cases hbl : bs.getLast? with
        | none => simp [List.getLastD_eq_getLast?, hbl]
        | some b =>
          have hb := hz b (List.mem_of_getLast?_eq_some hbl)
          simp [List.getLastD_eq_getLast?, hbl, hb]
      rw [hnow, hl]
      ring

theorem cadence_when_consumer_keeps_up_witness :
    tNewTicker 100 10 = .done { st := { sampleRunning with
        timers := [{ interval := 10, live := true }], d := 10 }, now := 100, due := 110 } ∧
    ∃ ts1, trun { st := { sampleRunning with
          timers := [{ interval := 10, live := true }], d := 10 }, now := 100, due := 110 }
        (keepUp 10 0 [0, 3, 0]) = .done ts1 ∧
      consumed { sampleRunning with timers := [{ interval := 10, live := true }], d := 10 }
        (untimed { st := { sampleRunning with
          timers := [{ interval := 10, live := true }], d := 10 }, now := 100, due := 110 }
          (keepUp 10 0 [0, 3, 0])) = [110, 120, 130] ∧
      ts1.now = 130 := by
  have hbs : ∀ b ∈ [(0 : Duration), 3, 0], 0 ≤ b ∧ b < 10 := by
    intro b hb
    simp only [List.mem_cons, List.mem_singleton, List.not_mem_nil, or_false] at hb
    rcases hb with rfl | rfl | rfl <;> decide
  obtain ⟨ts1, h1, _, h3, h4, _⟩ :=
    cadence_when_consumer_keeps_up 100 10 [0, 3, 0] _ rfl hbs
  exact ⟨rfl, ts1, h1, h3, h4⟩

/-- C19: in logical time, in every reachable state in which the loop takes a
Resume or Adjust command (a value `≥ 0`) at time `now`: the ticker `t.t`
pointed to is stopped and, whatever time was left until its next tick, the new
ticker ticks first at `now` plus its full period (the value received if
positive, the stored interval otherwise): no tick is due before, and that tick
is delivered then.  Hence if from there `Resume` is called and taken again and
again at gaps shorter than the period, the schedule runs and in every state it
goes through the timer case is disabled and the output channel holds what it
held: no tick is ever published. -/
theorem restart_discards_elapsed (d0 : Duration) (ts : Timed) (v : Duration)
    (rest : List Duration) (hr : Reachable d0 ts.st) (hbuf : ts.st.dc.buf = v :: rest)
    (hv : 0 ≤ v) :
    ∃ ts1, tstep ts (.act (.loop .command)) = .done ts1 ∧
      ts1.now = ts.now ∧ ts1.st.Running = true ∧
      ts1.st.d = (if 0 < v then v else ts.st.d) ∧ 0 < ts1.st.d ∧
      ts1.st.period = ts1.st.d ∧ ts1.due = ts.now + ts1.st.d ∧
      (∀ i, ts.st.t = some i → tickerDelivers ts1.st.timers i = false) ∧
      (∀ dt, 0 ≤ dt → dt < ts1.st.d →
        ∃ ts2, tstep ts1 (.wait dt) = .done ts2 ∧ tstep ts2 .tick = .blocked) ∧
      (∃ ts2 ts3, tstep ts1 (.wait ts1.st.d) = .done ts2 ∧ tstep ts2 .tick = .done ts3 ∧
        untimed ts2 [.tick] = [.loop (.timerFired (ts.now + ts1.st.d))] ∧
        ts3.due = ts.now + ts1.st.d + ts1.st.d) ∧
      (∀ gs, (∀ g ∈ gs, 0 ≤ g ∧ g < ts1.st.d) →
        (∃ ts2, trun ts1 (resumeEvery gs) = .done ts2 ∧ ts2.now = ts.now + gs.sum) ∧
        ∀ u ∈ tvisited ts1 (resumeEvery gs),
          tstep u .tick = .blocked ∧ u.st.out = ts.st.out) := by
  have hi := Inv_reachable d0 ts.st hr
  obtain ⟨i, ht, hlen⟩ := hi.handle
  have hrest : rest = [] := by
    have := hi.dcLen
    rw [hbuf] at this
    simp only [List.length_cons] at this
    exact List.length_eq_zero.mp (by omega)
  subst hrest
  have hcmd := command_restart ts.st i v [] ht hbuf hv hi.dPos
  have hi1 := Inv_command _ _ hi hcmd
  have e1 := tstep_act ts (.loop .command) _ (by simp) hcmd
  simp only [List.length_append, timeTickerStop_length, List.length_singleton,
    lt_add_iff_pos_right, zero_lt_one, if_true, period_restart] at e1
  have hd1 : (0 : Duration) < (if 0 < v then v else ts.st.d) := by
    split
    · assumption
    · exact hi.dPos
  have hrun1 : State.Running { ts.st with
      dc := { ts.st.dc with buf := [] },
      timers := timeTickerStop ts.st.timers i ++
        [{ interval := if 0 < v then v else ts.st.d, live := true }],
      t := some ts.st.timers.length, d := if 0 < v then v else ts.st.d } = true := by
    simp only [State.Running]
    exact tickerDelivers_append_new _ _ _
  refine ⟨_, e1, rfl, hrun1, rfl, hd1, period_restart _ _ _ _ _, rfl, ?_, ?_, ?_, ?_⟩
  · intro j hj
    rw [ht] at hj
    injection hj with hj
    subst hj
    have hlt : i < (timeTickerStop ts.st.timers i).length := by
      rw [timeTickerStop_length]
      omega
    have h1 := tickerDelivers_stop_self ts.st.timers i
    unfold tickerDelivers at h1 ⊢
    simp only [List.getElem?_append_left hlt]
    exact h1
  · intro dt h0 hlt
    refine ⟨_, tstep_wait _ dt h0 (by simp only; linarith), ?_⟩
    apply tstep_tick_blocked
    simp only
    intro h
    linarith
  · obtain ⟨s2, h2⟩ := onTick_total _ (ts.now + (if 0 < v then v else ts.st.d)) hi1
    have hw := tstep_wait
      { st := { ts.st with
          dc := { ts.st.dc with buf := [] },
          timers := timeTickerStop ts.st.timers i ++
            [{ interval := if 0 < v then v else ts.st.d, live := true }],
          t := some ts.st.timers.length, d := if 0 < v then v else ts.st.d },
        now := ts.now, due := ts.now + (if 0 < v then v else ts.st.d) }
      (if 0 < v then v else ts.st.d) (le_of_lt hd1) (le_refl _)
    have hfire := (loopIter_timerFired_eq _ (ts.now + (if 0 < v then v else ts.st.d))
      hrun1).trans h2
    have htk := tstep_tick
      { st := { ts.st with
          dc := { ts.st.dc with buf := [] },
          timers := timeTickerStop ts.st.timers i ++
            [{ interval := if 0 < v then v else ts.st.d, live := true }],
          t := some ts.st.timers.length, d := if 0 < v then v else ts.st.d },
        now := ts.now + (if 0 < v then v else ts.st.d),
        due := ts.now + (if 0 < v then v else ts.st.d) } s2 hrun1 rfl hfire
    refine ⟨_, _, hw, htk, ?_, ?_⟩
    · rw [untimed_tick _ _ _ htk]
      rfl
    · simp only [period_restart]
  · intro gs hgs
    obtain ⟨⟨ts2, r1, _, _, _, r5⟩, hvis⟩ := resumeEvery_quiet
      (if 0 < v then v else ts.st.d) gs
      { st := { ts.st with
          dc := { ts.st.dc with buf := [] },
          timers := timeTickerStop ts.st.timers i ++
            [{ interval := if 0 < v then v else ts.st.d, live := true }],
          t := some ts.st.timers.length, d := if 0 < v then v else ts.st.d },
        now := ts.now, due := ts.now + (if 0 < v then v else ts.st.d) }
      hi1 hrun1 rfl rfl rfl hgs
    exact ⟨⟨ts2, r1, r5⟩, hvis⟩

theorem restart_discards_elapsed_witness :
    Reachable 1000000 sampleTimed.st ∧ sampleTimed.st.dc.buf = [0] ∧
    ∃ ts1, tstep sampleTimed (.act (.loop .command)) = .done ts1 ∧
      ts1.now = 107 ∧ ts1.due = 107 + 1000000 ∧
      (∃ ts2, tstep ts1 (.wait 999999) = .done ts2 ∧ tstep ts2 .tick = .blocked) ∧
      (∃ ts2, trun ts1 (resumeEvery [999999, 5, 0]) = .done ts2 ∧
        ts2.now = 107 + 1000004) ∧
      ∀ u ∈ tvisited ts1 (resumeEvery [999999, 5, 0]),
        tstep u .tick = .blocked ∧ u.st.out = [] := by
  have hr : Reachable 1000000 sampleTimed.st := ⟨sampleRunning, [.resume], rfl, rfl⟩
  obtain ⟨ts1, h1, h2, _, h4, _, _, h7, _, h9, _, h11⟩ :=
    restart_discards_elapsed 1000000 sampleTimed 0 [] hr rfl (le_refl _)
  have hd : ts1.st.d = 1000000 := h4.trans rfl
  have hgs : ∀ g ∈ [(999999 : Duration), 5, 0], 0 ≤ g ∧ g < ts1.st.d := by
    intro g hg
    rw [hd]
    simp only [List.mem_cons, List.mem_singleton, List.not_mem_nil, or_false] at hg
    rcases hg with rfl | rfl | rfl <;> decide
  obtain ⟨⟨ts2, r1, r2⟩, hvis⟩ := h11 _ hgs
  refine ⟨hr, rfl, ts1, h1, h2, by rw [h7, hd]; rfl, h9 999999 (by decide) (by rw [hd]; decide),
    ⟨ts2, r1, by rw [r2]; rfl⟩, hvis⟩

end Tock
